import Mathlib

/-!
Verification of the flexlock durable task queue (taskdb.py, worker.py) and its
executor against the repository's specification.

The embedding models Python values (`PyVal`), Python `str`/`repr` (the input of
the content hash `_hash_task`), SHA-1, the PyYAML `dump`/`safe_load` pair on
the plain-value fragment the queue stores, the SQLite-backed task table as a
list of rows, and the worker loop as a fuel-indexed transition function.
-/

set_option maxRecDepth 40000

/-- Model of a Python value as stored in / loaded from the task queue:
`None`, `bool`, `int`, `str`, `list`, and `dict` with string keys (the task
payloads the system handles are YAML data, whose mappings here are restricted
to string keys as in every task of the repository's tests).  Floats are not
modelled. -/
inductive PyVal where
  | pyNone : PyVal
  | pyBool : Bool → PyVal
  | pyInt : Int → PyVal
  | pyStr : String → PyVal
  | pyList : List PyVal → PyVal
  | pyDict : List (String × PyVal) → PyVal

mutual

/-- Boolean structural equality on modelled Python values. -/
def pyBeq : PyVal → PyVal → Bool
  | .pyNone, .pyNone => true
  | .pyBool a, .pyBool b => a == b
  | .pyInt a, .pyInt b => a == b
  | .pyStr a, .pyStr b => a == b
  | .pyList a, .pyList b => pyBeqList a b
  | .pyDict a, .pyDict b => pyBeqKvs a b
  | _, _ => false

/-- Boolean equality on value lists. -/
def pyBeqList : List PyVal → List PyVal → Bool
  | [], [] => true
  | a :: as1, b :: bs1 => pyBeq a b && pyBeqList as1 bs1
  | _, _ => false

/-- Boolean equality on mapping item lists. -/
def pyBeqKvs : List (String × PyVal) → List (String × PyVal) → Bool
  | [], [] => true
  | (k1, v1) :: as1, (k2, v2) :: bs1 => k1 == k2 && pyBeq v1 v2 && pyBeqKvs as1 bs1
  | _, _ => false
end


theorem pyBeq_iff : ∀ a b : PyVal, pyBeq a b = true ↔ a = b :=
  pyBeq.induct (fun a b => pyBeq a b = true ↔ a = b)
    (fun p q => pyBeqKvs p q = true ↔ p = q)
    (fun x y => pyBeqList x y = true ↔ x = y)
    (by simp [pyBeq])
    (by intro a b; simp [pyBeq])
    (by intro a b; simp [pyBeq])
    (by intro a b; simp [pyBeq])
    (by intro a b ih; simpa [pyBeq] using ih)
    (by intro a b ih; simpa [pyBeq] using ih)
    (by intro t x h1 h2 h3 h4 h5 h6; cases t <;> cases x <;> simp_all [pyBeq])
    (by simp [pyBeqList])
    (by intro a as1 b bs1 ih1 ih2; simp [pyBeqList, ih1, ih2])
    (by
      intro t x h1 h2
      cases t <;> cases x
      · exact (h1 rfl rfl).elim
      · simp [pyBeqList]
      · simp [pyBeqList]
      · exact ((h2 _ _ _ _ rfl rfl)).elim)
    (by simp [pyBeqKvs])
    (by intro k1 v1 as1 k2 v2 bs1 ih1 ih2; simp [pyBeqKvs, ih1, ih2, and_assoc])
    (by
      intro t x h1 h2
      cases t <;> cases x
      · exact (h1 rfl rfl).elim
      · simp [pyBeqKvs]
      · simp [pyBeqKvs]
      · rename_i p ps q qs
        exact (h2 p.1 p.2 ps q.1 q.2 qs rfl rfl).elim)


instance : DecidableEq PyVal := fun a b => decidable_of_iff _ (pyBeq_iff a b)

/-- Decimal digit character (values 0-9 map to characters 0-9). -/
def digitChar (d : Nat) : Char := Char.ofNat (48 + d)

/-- Decimal digits of `n`, least significant first; `fuel` bounds recursion
(callers pass `n` itself, which suffices since `n / 10 < n` for `n > 0`). -/
def natDigitsAux : Nat → Nat → List Char
  | 0, _ => []
  | _ + 1, 0 => []
  | fuel + 1, n + 1 => digitChar ((n + 1) % 10) :: natDigitsAux fuel ((n + 1) / 10)

/-- Decimal representation of a natural number, as Python prints it. -/
def natRepr (n : Nat) : String := if n = 0 then "0" else ⟨(natDigitsAux n n).reverse⟩

/-- Python `str` of an `int`: decimal digits with a leading minus sign when
negative. -/
def intRepr : Int → String
  | Int.ofNat n => natRepr n
  | Int.negSucc n => "-" ++ natRepr (n + 1)

/-- The single-quote character, written via its code point. -/
def sqc : Char := Char.ofNat 39

/-- The double-quote character. -/
def dqc : Char := Char.ofNat 34

/-- The backslash character. -/
def bsc : Char := Char.ofNat 92

/-- Hexadecimal digit character for a nibble. -/
def hexDigit (n : Nat) : Char := if n < 10 then Char.ofNat (48 + n) else Char.ofNat (87 + n)

/-- Escapes one character of a Python string literal, given the chosen quote
character, as Python `repr` does: backslash and the quote are
backslash-escaped, newline/carriage-return/tab print as two-character escapes,
and other control characters as hexadecimal escapes. -/
def pyEscapeChar (quote c : Char) : List Char :=
  if c = bsc then [bsc, bsc]
  else if c = quote then [bsc, quote]
  else if c = Char.ofNat 10 then [bsc, Char.ofNat 110]
  else if c = Char.ofNat 13 then [bsc, Char.ofNat 114]
  else if c = Char.ofNat 9 then [bsc, Char.ofNat 116]
  else if c.toNat < 32 ∨ c.toNat = 127 then
    [bsc, Char.ofNat 120, hexDigit (c.toNat / 16 % 16), hexDigit (c.toNat % 16)]
  else [c]

/-- Python `repr` of a string: single quotes, except double quotes when the
string contains a single quote but no double quote. -/
def strRepr (s : String) : String :=
  let quote := if s.data.contains sqc ∧ ¬ s.data.contains dqc then dqc else sqc
  ⟨quote :: (s.data.map (pyEscapeChar quote)).flatten ++ [quote]⟩

mutual

/-- Model of Python `repr` on the modelled values: this is what `str(task)`
produces for every non-string task, and hence the text `_hash_task` hashes. -/
def pyRepr : PyVal → String
  | .pyNone => "None"
  | .pyBool true => "True"
  | .pyBool false => "False"
  | .pyInt n => intRepr n
  | .pyStr s => strRepr s
  | .pyList xs => "[" ++ pyReprList xs ++ "]"
  | .pyDict kvs => "\x7b" ++ pyReprDict kvs ++ "\x7d"

/-- Comma-separated `repr`s of list elements. -/
def pyReprList : List PyVal → String
  | [] => ""
  | [x] => pyRepr x
  | x :: y :: xs => pyRepr x ++ ", " ++ pyReprList (y :: xs)

/-- Comma-separated `key: value` pairs of a dict's `repr` (keys are strings,
shown with `repr`). -/
def pyReprDict : List (String × PyVal) → String
  | [] => ""
  | [(k, v)] => strRepr k ++ ": " ++ pyRepr v
  | (k, v) :: y :: xs => strRepr k ++ ": " ++ pyRepr v ++ ", " ++ pyReprDict (y :: xs)

end

/-- Model of Python `str`: the string itself for strings, `repr` otherwise. -/
def pyToString : PyVal → String
  | .pyStr s => s
  | v => pyRepr v

/-- UTF-8 encoding of one character, as a list of byte values. -/
def charUtf8 (c : Char) : List Nat :=
  let n := c.toNat
  if n < 128 then [n]
  else if n < 2048 then [192 + n / 64, 128 + n % 64]
  else if n < 65536 then [224 + n / 4096, 128 + n / 64 % 64, 128 + n % 64]
  else [240 + n / 262144, 128 + n / 4096 % 64, 128 + n / 64 % 64, 128 + n % 64]

/-- UTF-8 encoding of a string (Python `.encode()`), as a list of byte values. -/
def utf8Bytes (s : String) : List Nat := (s.data.map charUtf8).flatten

/-- Reduction modulo 2^32, the word size of SHA-1 arithmetic. -/
def w32 (n : Nat) : Nat := n % 4294967296

/-- Left rotation of a 32-bit word by `b` bits. -/
def rotl (b n : Nat) : Nat := (n % 2 ^ (32 - b)) * 2 ^ b + n / 2 ^ (32 - b)

/-- Big-endian 64-bit byte encoding of a length in bits, as SHA-1 padding uses. -/
def be64 (n : Nat) : List Nat :=
  [n / 2 ^ 56 % 256, n / 2 ^ 48 % 256, n / 2 ^ 40 % 256, n / 2 ^ 32 % 256,
   n / 2 ^ 24 % 256, n / 2 ^ 16 % 256, n / 2 ^ 8 % 256, n % 256]

/-- SHA-1 message padding: a 0x80 byte, zeros to 56 mod 64, and the bit length. -/
def sha1Pad (msg : List Nat) : List Nat :=
  let len := msg.length
  msg ++ 128 :: List.replicate ((119 - len % 64) % 64) 0 ++ be64 (8 * len)

/-- Packs bytes into big-endian 32-bit words. -/
def toWords : List Nat → List Nat
  | a :: b :: c :: d :: rest => (((a * 256 + b) * 256 + c) * 256 + d) :: toWords rest
  | _ => []

/-- Extends the 16-word block to the 80-word SHA-1 message schedule. -/
def extendW (ws : List Nat) : Nat → List Nat
  | 0 => ws
  | n + 1 =>
    let k := ws.length
    extendW (ws ++ [rotl 1 ((ws.getD (k - 3) 0) ^^^ (ws.getD (k - 8) 0) ^^^
      (ws.getD (k - 14) 0) ^^^ (ws.getD (k - 16) 0))]) n

/-- The five-word SHA-1 chaining state. -/
abbrev Sha1State := Nat × Nat × Nat × Nat × Nat

/-- The SHA-1 round function selected by round index. -/
def sha1F (i b c d : Nat) : Nat :=
  if i < 20 then (b &&& c) ||| ((b ^^^ 4294967295) &&& d)
  else if i < 40 then b ^^^ c ^^^ d
  else if i < 60 then (b &&& c) ||| (b &&& d) ||| (c &&& d)
  else b ^^^ c ^^^ d

/-- The SHA-1 round constant selected by round index. -/
def sha1K (i : Nat) : Nat :=
  if i < 20 then 1518500249
  else if i < 40 then 1859775393
  else if i < 60 then 2400959708
  else 3395469782

/-- One SHA-1 round on the working state, consuming the indexed schedule word. -/
def sha1Round (st : Sha1State) (iw : Nat × Nat) : Sha1State :=
  let (a, b, c, d, e) := st
  let t := w32 (rotl 5 a + sha1F iw.1 b c d + e + sha1K iw.1 + iw.2)
  (t, a, rotl 30 b, c, d)

/-- SHA-1 compression of one 64-byte block into the chaining state. -/
def sha1Compress (h : Sha1State) (block : List Nat) : Sha1State :=
  let ws := extendW (toWords block) 64
  let (a, b, c, d, e) := ws.enum.foldl sha1Round h
  (w32 (h.1 + a), w32 (h.2.1 + b), w32 (h.2.2.1 + c), w32 (h.2.2.2.1 + d), w32 (h.2.2.2.2 + e))

/-- Iterates SHA-1 compression over the padded message, 64 bytes at a time. -/
def sha1Go : Nat → Sha1State → List Nat → Sha1State
  | 0, h, _ => h
  | _, h, [] => h
  | n + 1, h, bytes => sha1Go n (sha1Compress h (bytes.take 64)) (bytes.drop 64)

/-- Eight hexadecimal characters of one 32-bit word, most significant first. -/
def hex8 (n : Nat) : List Char :=
  [hexDigit (n / 2 ^ 28 % 16), hexDigit (n / 2 ^ 24 % 16), hexDigit (n / 2 ^ 20 % 16),
   hexDigit (n / 2 ^ 16 % 16), hexDigit (n / 2 ^ 12 % 16), hexDigit (n / 2 ^ 8 % 16),
   hexDigit (n / 2 ^ 4 % 16), hexDigit (n % 16)]

/-- SHA-1 digest of a byte list as a 40-character lowercase hex string
(`hashlib.sha1(...).hexdigest()`). -/
def sha1Hex (msg : List Nat) : String :=
  let padded := sha1Pad msg
  let (a, b, c, d, e) :=
    sha1Go (padded.length / 64) (1732584193, 4023233417, 2562383102, 271733878, 3285377520) padded
  String.mk (hex8 a ++ hex8 b ++ hex8 c ++ hex8 d ++ hex8 e)

/-- Model of `taskdb._hash_task`: the SHA-1 hex digest of the UTF-8 encoding of
`str(task)`. -/
def hash_task (task : PyVal) : String := sha1Hex (utf8Bytes (pyToString task))

-- known-answer check of the SHA-1 model
example : sha1Hex (utf8Bytes "abc") = "a9993e364706816aba3e25717850c26c9cd0d89d" := by decide

/-! ## PyYAML model

`yaml.dump` (block style, `sort_keys=True`, the library's defaults) and
`yaml.safe_load`, modelled on the fragment of YAML the task queue produces:
scalar documents, block sequences and block mappings of scalars.  The dump
side renders every modelled value; the parse side covers the flat documents
the dump side emits for flat values and answers `none` outside that fragment
(nested block structure, flow collections).  Floats and timestamps are not
modelled; their lexical forms parse as strings. -/

/-- The newline character. -/
def nlc : Char := Char.ofNat 10

/-- The opening-brace character. -/
def obc : Char := Char.ofNat 123

/-- The closing-brace character. -/
def cbc : Char := Char.ofNat 125

/-- Scalar spellings `yaml.safe_load` reads as `None`. -/
def nullWords : List String := ["null", "Null", "NULL", "~"]

/-- Scalar spellings `yaml.safe_load` reads as `True`. -/
def trueWords : List String := ["true", "True", "TRUE", "yes", "Yes", "YES", "on", "On", "ON"]

/-- Scalar spellings `yaml.safe_load` reads as `False`. -/
def falseWords : List String := ["false", "False", "FALSE", "no", "No", "NO", "off", "Off", "OFF"]

/-- Words a plain (unquoted) string scalar must avoid. -/
def yamlReserved : List String := nullWords ++ trueWords ++ falseWords

/-- ASCII letter test (written on code points). -/
def asciiAlpha (c : Char) : Bool :=
  (decide (65 ≤ c.toNat) && decide (c.toNat ≤ 90)) ||
    (decide (97 ≤ c.toNat) && decide (c.toNat ≤ 122))

/-- ASCII digit test (written on code points). -/
def asciiDigit (c : Char) : Bool := decide (48 ≤ c.toNat) && decide (c.toNat ≤ 57)

/-- Characters this model allows inside a plain (unquoted) string scalar: a
conservative rendering of PyYAML's plain-scalar analysis restricted to
characters that are unambiguous in every block context. -/
def plainChar (c : Char) : Bool :=
  asciiAlpha c || asciiDigit c || c = '_' || c = '.' || c = '/' || c = '-' || c = ' '

/-- Characters a plain string scalar may start with (letters and a few safe
marks; digits and signs are excluded so the scalar cannot resolve as a
number). -/
def plainFirst (c : Char) : Bool := asciiAlpha c || c = '_' || c = '/'

/-- Plain-style test on the character list of a string. -/
def isPlainStrL : List Char → Bool
  | [] => false
  | c :: cs =>
    plainFirst c && cs.all plainChar &&
      (match (c :: cs).getLast? with
       | some l => decide (l ≠ ' ')
       | none => false)

/-- Whether `yaml.dump` may emit the string as a plain scalar in this model:
safe characters only, a safe first character, no trailing space, and not a
reserved word. -/
def isPlainStr (s : String) : Bool := isPlainStrL s.data && !(yamlReserved.contains s)

/-- Whether the string needs double-quoted style (control or non-ASCII
characters, which PyYAML escapes with `allow_unicode=False`). -/
def needsDoubleStr (s : String) : Bool :=
  s.data.any (fun c => decide (c.toNat < 32) || decide (c.toNat ≥ 127))

/-- Single-quoted style escapes a quote by doubling it. -/
def sqEsc : List Char → List Char
  | [] => []
  | c :: cs => if c = sqc then sqc :: sqc :: sqEsc cs else c :: sqEsc cs

/-- A single-quoted YAML scalar. -/
def sqText (s : String) : String := ⟨sqc :: sqEsc s.data ++ [sqc]⟩

/-- Escape of one character in a double-quoted YAML scalar. -/
def yamlDqEscChar (c : Char) : List Char :=
  if c = bsc then [bsc, bsc]
  else if c = dqc then [bsc, dqc]
  else if c = nlc then [bsc, Char.ofNat 110]
  else if c = Char.ofNat 9 then [bsc, Char.ofNat 116]
  else if c = Char.ofNat 13 then [bsc, Char.ofNat 114]
  else if decide (c.toNat < 32) || decide (c.toNat = 127) then
    [bsc, Char.ofNat 120, hexDigit (c.toNat / 16 % 16), hexDigit (c.toNat % 16)]
  else if decide (c.toNat ≥ 128) then
    if c.toNat < 65536 then
      [bsc, Char.ofNat 117, hexDigit (c.toNat / 4096 % 16), hexDigit (c.toNat / 256 % 16),
       hexDigit (c.toNat / 16 % 16), hexDigit (c.toNat % 16)]
    else
      [bsc, Char.ofNat 85, hexDigit (c.toNat / 2 ^ 28 % 16), hexDigit (c.toNat / 2 ^ 24 % 16),
       hexDigit (c.toNat / 2 ^ 20 % 16), hexDigit (c.toNat / 2 ^ 16 % 16),
       hexDigit (c.toNat / 4096 % 16), hexDigit (c.toNat / 256 % 16),
       hexDigit (c.toNat / 16 % 16), hexDigit (c.toNat % 16)]
  else [c]

/-- A double-quoted YAML scalar. -/
def dqText (s : String) : String := ⟨dqc :: (s.data.map yamlDqEscChar).flatten ++ [dqc]⟩

/-- Scalar text of a string: plain when safe, else single-quoted, else
double-quoted, following PyYAML's style choice on the modelled fragment. -/
def yamlStrText (s : String) : String :=
  if isPlainStr s then s
  else if needsDoubleStr s then dqText s
  else sqText s

/-- Scalar text of a value; the collection cases are used only for empty
collections, which block style cannot represent and PyYAML emits in flow
style. -/
def yamlScalarText : PyVal → String
  | .pyNone => "null"
  | .pyBool true => "true"
  | .pyBool false => "false"
  | .pyInt n => intRepr n
  | .pyStr s => yamlStrText s
  | .pyList _ => "[]"
  | .pyDict _ => ⟨[obc, cbc]⟩

/-- Document-end marker lines: PyYAML emits `...` after a document whose root
is a plain-style scalar. -/
def plainRootEnd : PyVal → List String
  | .pyNone => ["..."]
  | .pyBool _ => ["..."]
  | .pyInt _ => ["..."]
  | .pyStr s => if isPlainStr s then ["..."] else []
  | _ => []

/-- Indentation prefix. -/
def indentStr (i : Nat) : String := ⟨List.replicate i ' '⟩

/-- Stable insertion of an element into a sorted list (kernel-computable
stable sort used to model Python's stable `sorted` and SQL `ORDER BY`). -/
def insertSorted (le : α → α → Bool) (x : α) : List α → List α
  | [] => [x]
  | y :: ys => if le x y then x :: y :: ys else y :: insertSorted le x ys

/-- Stable insertion sort. -/
def insertionSort (le : α → α → Bool) : List α → List α
  | [] => []
  | x :: xs => insertSorted le x (insertionSort le xs)

/-- Lexicographic code-point comparison of character lists (Python string
`<=`). -/
def strLeB : List Char → List Char → Bool
  | [], _ => true
  | _ :: _, [] => false
  | a :: as1, b :: bs1 =>
    if a.toNat < b.toNat then true
    else if b.toNat < a.toNat then false
    else strLeB as1 bs1

/-- Python string comparison, as `sorted` orders mapping keys. -/
def strLe (s t : String) : Bool := strLeB s.data t.data

/-- Sorts a mapping's items by key, as `yaml.dump`'s default `sort_keys=True`
does (Python sorts strings lexicographically by code point). -/
def sortKvs (kvs : List (String × PyVal)) : List (String × PyVal) :=
  insertionSort (fun a b => strLe a.1 b.1) kvs

mutual

/-- Canonicalizes a value for dumping: every mapping's items sorted by key,
recursively (PyYAML sorts each mapping when it represents it). -/
def canonSort : PyVal → PyVal
  | .pyList xs => .pyList (canonList xs)
  | .pyDict kvs => .pyDict (sortKvs (canonKvs kvs))
  | v => v

/-- Canonicalization mapped over list elements. -/
def canonList : List PyVal → List PyVal
  | [] => []
  | v :: vs => canonSort v :: canonList vs

/-- Canonicalization mapped over mapping values. -/
def canonKvs : List (String × PyVal) → List (String × PyVal)
  | [] => []
  | (k, v) :: vs => (k, canonSort v) :: canonKvs vs

end

/-- Merges a child block's first line into its `- ` sequence marker (compact
block style): the child is rendered at `i + 2` and the first `i + 2` columns
of its first line are replaced by `i` spaces and `- `. -/
def yamlCompact (i : Nat) : List String → List String
  | [] => []
  | l :: ls => (indentStr i ++ "- " ++ ⟨l.data.drop (i + 2)⟩) :: ls

mutual

/-- Block-sequence lines of a list at indentation `i`. -/
def yamlSeqLines (i : Nat) : List PyVal → List String
  | [] => []
  | v :: rest => yamlSeqItem i v ++ yamlSeqLines i rest

/-- Lines of one sequence item: scalars inline after `- `; non-empty nested
collections in PyYAML's compact style (the child block's first line merged
into the `- ` line). -/
def yamlSeqItem (i : Nat) (v : PyVal) : List String :=
  match v with
  | .pyList (x :: xs) => yamlCompact i (yamlSeqLines (i + 2) (x :: xs))
  | .pyDict (p :: ps) => yamlCompact i (yamlMapLines (i + 2) (p :: ps))
  | w => [indentStr i ++ "- " ++ yamlScalarText w]

/-- Block-mapping lines at indentation `i` (items assumed key-sorted). -/
def yamlMapLines (i : Nat) : List (String × PyVal) → List String
  | [] => []
  | (k, v) :: rest => yamlMapItem i k v ++ yamlMapLines i rest

/-- Lines of one mapping item: scalar values inline after `: `; a non-empty
child sequence is indentless (PyYAML's default block-sequence indentation
inside a mapping); a non-empty child mapping indents by two. -/
def yamlMapItem (i : Nat) (k : String) (v : PyVal) : List String :=
  match v with
  | .pyList (x :: xs) => (indentStr i ++ yamlStrText k ++ ":") :: yamlSeqLines i (x :: xs)
  | .pyDict (p :: ps) => (indentStr i ++ yamlStrText k ++ ":") :: yamlMapLines (i + 2) (p :: ps)
  | w => [indentStr i ++ yamlStrText k ++ ": " ++ yamlScalarText w]

end

/-- Lines of one YAML document for a (canonicalized) value. -/
def yamlDumpLines : PyVal → List String
  | .pyList [] => ["[]"]
  | .pyDict [] => [⟨[obc, cbc]⟩]
  | .pyList (x :: xs) => yamlSeqLines 0 (x :: xs)
  | .pyDict (p :: ps) => yamlMapLines 0 (p :: ps)
  | v => yamlScalarText v :: plainRootEnd v

/-- Model of `yaml.dump(task)`: canonicalize (PyYAML sorts mapping keys as it
represents them) and emit one line per list entry, each newline-terminated. -/
def yaml_dump (v : PyVal) : String :=
  ⟨((yamlDumpLines (canonSort v)).map (fun l => l.data ++ [nlc])).flatten⟩

/-- Splits a character list at newline characters. -/
def splitNl : List Char → List (List Char)
  | [] => [[]]
  | c :: cs =>
    if c = nlc then [] :: splitNl cs
    else
      match splitNl cs with
      | [] => [[c]]
      | l :: ls => (c :: l) :: ls

/-- Digit test for scalar resolution. -/
def isDigitC (c : Char) : Bool := decide (48 ≤ c.toNat) && decide (c.toNat ≤ 57)

/-- Value of an all-digit character list (most significant first); `none` when
empty or containing a non-digit. -/
def parseNatDigits (cs : List Char) : Option Nat :=
  if cs = [] then none
  else if cs.all isDigitC then some (cs.foldl (fun a c => a * 10 + (c.toNat - 48)) 0)
  else none

/-- Decimal integer literal with an optional sign, as the safe resolver reads
the integers this model's dump emits. -/
def parseIntLit : List Char → Option Int
  | [] => none
  | c :: cs =>
    if c = '-' then (parseNatDigits cs).map (fun n => -(n : Int))
    else if c = '+' then (parseNatDigits cs).map (fun n => (n : Int))
    else (parseNatDigits (c :: cs)).map (fun n => (n : Int))

/-- Resolution of a plain scalar: the null, boolean and integer lexicons, then
string (floats and timestamps are outside the model and resolve as strings). -/
def resolvePlain (cs : List Char) : PyVal :=
  let s : String := ⟨cs⟩
  if cs = [] then .pyNone
  else if nullWords.contains s then .pyNone
  else if trueWords.contains s then .pyBool true
  else if falseWords.contains s then .pyBool false
  else
    match parseIntLit cs with
    | some n => .pyInt n
    | none => .pyStr s

/-- Scans a single-quoted scalar body after its opening quote: a doubled quote
is a literal quote, a lone quote closes; returns the content and the rest of
the line. -/
def sqScan : List Char → Option (List Char × List Char)
  | [] => none
  | c :: cs =>
    if c = sqc then
      match cs with
      | [] => some ([], [])
      | d :: ds =>
        if d = sqc then
          match sqScan ds with
          | some (a, r) => some (sqc :: a, r)
          | none => none
        else some ([], d :: ds)
    else
      match sqScan cs with
      | some (a, r) => some (c :: a, r)
      | none => none

/-- Value of a hexadecimal digit character. -/
def hexVal (c : Char) : Option Nat :=
  if isDigitC c then some (c.toNat - 48)
  else if decide (97 ≤ c.toNat) && decide (c.toNat ≤ 102) then some (c.toNat - 87)
  else if decide (65 ≤ c.toNat) && decide (c.toNat ≤ 70) then some (c.toNat - 55)
  else none

/-- Scans a double-quoted scalar body after its opening quote, undoing the
escapes `yamlDqEscChar` produces. -/
def dqScan : List Char → Option (List Char × List Char)
  | [] => none
  | c :: cs =>
    if c = dqc then some ([], cs)
    else if c = bsc then
      match cs with
      | [] => none
      | e :: es =>
        if e = Char.ofNat 110 then
          match dqScan es with
          | some (a, r) => some (nlc :: a, r)
          | none => none
        else if e = Char.ofNat 116 then
          match dqScan es with
          | some (a, r) => some (Char.ofNat 9 :: a, r)
          | none => none
        else if e = Char.ofNat 114 then
          match dqScan es with
          | some (a, r) => some (Char.ofNat 13 :: a, r)
          | none => none
        else if e = bsc ∨ e = dqc then
          match dqScan es with
          | some (a, r) => some (e :: a, r)
          | none => none
        else if e = Char.ofNat 120 then
          match es with
          | h1 :: h2 :: es2 =>
            match hexVal h1, hexVal h2, dqScan es2 with
            | some v1, some v2, some (a, r) => some (Char.ofNat (16 * v1 + v2) :: a, r)
            | _, _, _ => none
          | _ => none
        else if e = Char.ofNat 117 then
          match es with
          | h1 :: h2 :: h3 :: h4 :: es2 =>
            match hexVal h1, hexVal h2, hexVal h3, hexVal h4, dqScan es2 with
            | some v1, some v2, some v3, some v4, some (a, r) =>
              some (Char.ofNat (4096 * v1 + 256 * v2 + 16 * v3 + v4) :: a, r)
            | _, _, _, _, _ => none
          | _ => none
        else none
    else
      match dqScan cs with
      | some (a, r) => some (c :: a, r)
      | none => none

/-- Whether a line opens a block-sequence entry (`- `). -/
def startsSeq : List Char → Bool
  | c1 :: c2 :: _ => c1 = '-' && c2 = ' '
  | _ => false

/-- Splits a line at the first `: ` (or at a trailing `:`), the key/value
separator of a block-mapping line. -/
def splitColonSp : List Char → Option (List Char × List Char)
  | [] => none
  | [c] => if c = ':' then some ([], []) else none
  | c :: d :: rest =>
    if c = ':' ∧ d = ' ' then some ([], rest)
    else
      match splitColonSp (d :: rest) with
      | some (a, b) => some (c :: a, b)
      | none => none

/-- Parses one full line as a scalar (a whole document or a value after `: ` /
`- `); answers `none` on lines that open structure the flat fragment does not
cover. -/
def parseScalarLine (cs : List Char) : Option PyVal :=
  match cs with
  | [] => some .pyNone
  | c :: rest =>
    if c = sqc then
      match sqScan rest with
      | some (a, []) => some (.pyStr ⟨a⟩)
      | _ => none
    else if c = dqc then
      match dqScan rest with
      | some (a, []) => some (.pyStr ⟨a⟩)
      | _ => none
    else if cs = ['[', ']'] then some (.pyList [])
    else if cs = [obc, cbc] then some (.pyDict [])
    else if startsSeq cs ∨ c = ' ' ∨ (splitColonSp cs).isSome then none
    else some (resolvePlain cs)

/-- Parses one block-mapping line `key: value` with a plain or quoted key. -/
def parseMapLine (cs : List Char) : Option (String × PyVal) :=
  match cs with
  | [] => none
  | c :: rest =>
    if c = ' ' then none
    else if c = sqc then
      match sqScan rest with
      | some (k, ':' :: ' ' :: v) => (parseScalarLine v).map (fun w => (⟨k⟩, w))
      | some (k, [':']) => some (⟨k⟩, .pyNone)
      | _ => none
    else if c = dqc then
      match dqScan rest with
      | some (k, ':' :: ' ' :: v) => (parseScalarLine v).map (fun w => (⟨k⟩, w))
      | some (k, [':']) => some (⟨k⟩, .pyNone)
      | _ => none
    else
      match splitColonSp cs with
      | some (k, v) => (parseScalarLine v).map (fun w => (⟨k⟩, w))
      | none => none

/-- Parses the lines of a flat block sequence of scalars. -/
def parseSeqLines : List (List Char) → Option (List PyVal)
  | [] => some []
  | l :: ls =>
    match l with
    | c1 :: c2 :: rest =>
      if c1 = '-' ∧ c2 = ' ' then
        match parseScalarLine rest, parseSeqLines ls with
        | some v, some vs => some (v :: vs)
        | _, _ => none
      else none
    | _ => none

/-- Parses the lines of a flat block mapping of scalars. -/
def parseMapLinesF : List (List Char) → Option (List (String × PyVal))
  | [] => some []
  | l :: ls =>
    match parseMapLine l, parseMapLinesF ls with
    | some kv, some kvs => some (kv :: kvs)
    | _, _ => none

/-- Drops a trailing `...` document-end line. -/
def stripEnd (ls : List (List Char)) : List (List Char) :=
  match ls.getLast? with
  | some l => if l = ['.', '.', '.'] then ls.dropLast else ls
  | none => ls

/-- Parses a document from its (non-empty) lines: a flat sequence, a flat
mapping, or a single scalar line. -/
def parseDoc (rawLines : List (List Char)) : Option PyVal :=
  let ls := stripEnd (rawLines.filter (fun l => l ≠ []))
  match ls with
  | [] => some .pyNone
  | l :: _ =>
    if startsSeq l then (parseSeqLines ls).map .pyList
    else
      match parseMapLinesF ls with
      | some kvs => some (.pyDict kvs)
      | none =>
        match ls with
        | [l1] => parseScalarLine l1
        | _ => none

/-- Model of `yaml.safe_load` on the flat fragment: split the text into lines
and parse the document. -/
def yaml_safe_load (s : String) : Option PyVal := parseDoc (splitNl s.data)

/-! ## Task store model

The SQLite `tasks` table of `taskdb.py` as a list of rows in rowid order;
every operation of the module is one atomic transition on this state (each
Python function executes a single SQL statement inside one transaction).
`CURRENT_TIMESTAMP` is modelled by an explicit `now` argument. -/

/-- The status column's values; `pending` is the column default. -/
inductive Status where
  | pending : Status
  | running : Status
  | done : Status
  | failed : Status
  deriving DecidableEq

/-- One row of the `tasks` table (`task_id` is the primary key; `task_info` is
written on insert and never nulled, so it is modelled as a plain string). -/
structure TaskRec where
  task_id : String
  task_info : String
  result_info : Option String
  status : Status
  node : Option String
  error : Option String
  ts_start : Option Nat
  ts_end : Option Nat
  deriving DecidableEq

/-- The table state, in rowid order. -/
abbrev Store := List TaskRec

/-- A freshly inserted row: `pending` status, all other columns NULL. -/
def newRec (tid info : String) : TaskRec :=
  { task_id := tid, task_info := info, result_info := none, status := .pending,
    node := none, error := none, ts_start := none, ts_end := none }

/-- Whether a row with the given primary key exists. -/
def hasId (st : Store) (tid : String) : Bool := st.any (fun r => r.task_id = tid)

/-- One `INSERT OR IGNORE` of a task: appends a pending row unless the
content-hash key is already present. -/
def insertTask (st : Store) (t : PyVal) : Store :=
  if hasId st (hash_task t) then st else st ++ [newRec (hash_task t) (yaml_dump t)]

/-- Model of `taskdb.queue_tasks`: `executemany` of `INSERT OR IGNORE` over
the task list, hashing each task and storing its YAML serialization. -/
def queue_tasks (st : Store) (tasks : List PyVal) : Store := tasks.foldl insertTask st

/-- The row update performed by a successful claim. -/
def setRunning (node : String) (now : Nat) (tid : String) (r : TaskRec) : TaskRec :=
  if r.task_id = tid then
    { r with status := .running, node := some node, ts_start := some now }
  else r

/-- Model of `taskdb.claim_next_task`: one atomic
`UPDATE .. WHERE task_id = (SELECT task_id .. WHERE status='pending' LIMIT 1)
RETURNING task_info`; the returned payload is `yaml.safe_load` of the stored
serialization, and `None` is returned when no pending row exists. -/
def claim_next_task (st : Store) (node : String) (now : Nat) : Option PyVal × Store :=
  match st.find? (fun r => r.status = .pending) with
  | none => (none, st)
  | some r => (yaml_safe_load r.task_info, st.map (setRunning node now r.task_id))

/-- Python truthiness of the optional `error` argument: `None` and the empty
string are falsy. -/
def truthyS : Option String → Bool
  | none => false
  | some s => s ≠ ""

/-- The row update `finish_task` performs on the row keyed by `tid`: status
`failed` iff `error` is truthy else `done`, the error string, the serialized
result, and the finish timestamp. -/
def finishUpd (tid : String) (error : Option String) (result_str : Option String) (now : Nat)
    (r : TaskRec) : TaskRec :=
  if r.task_id = tid then
    { r with status := if truthyS error then Status.failed else Status.done,
             error := error, result_info := result_str, ts_end := some now }
  else r

/-- Model of `taskdb.finish_task`: unconditional `UPDATE` of the row keyed by
the hash of `task`, setting `failed` iff `error` is truthy, storing the
serialized result (NULL when the result is `None`), the error string, and the
finish timestamp. -/
def finish_task (st : Store) (task : PyVal) (error : Option String) (result : Option PyVal)
    (now : Nat) : Store :=
  st.map (finishUpd (hash_task task) error (result.map yaml_dump) now)

/-- Model of `taskdb.pending_count`: `SELECT COUNT(*) .. WHERE status='pending'`. -/
def pending_count (st : Store) : Nat := (st.filter (fun r => r.status = .pending)).length

/-- Sort key for `ORDER BY ts_end`: SQL NULLs order before every value. -/
def tsKey : Option Nat → Nat
  | none => 0
  | some t => t + 1

/-- The rows `dump_to_yaml` selects: status `done` or `failed`, ordered by
completion time (a stable sort refines SQLite's unspecified tie order). -/
def completedRows (st : Store) : List TaskRec :=
  insertionSort (fun a b => decide (tsKey a.ts_end ≤ tsKey b.ts_end))
    (st.filter (fun r => r.status = .done ∨ r.status = .failed))

/-- One row's entry in the exported data, following the comprehension in
`dump_to_yaml`: rows whose `result_info` and `task_info` are both falsy are
skipped; otherwise the result deserializes when truthy, else the original
payload. -/
def rowEntry (r : TaskRec) : Option PyVal :=
  if truthyS r.result_info then some ((yaml_safe_load (r.result_info.getD "")).getD .pyNone)
  else if r.task_info ≠ "" then some ((yaml_safe_load r.task_info).getD .pyNone)
  else none

/-- Model of `taskdb.dump_to_yaml`'s selection: the data list written to the
result file. -/
def dump_to_yaml (st : Store) : List PyVal := (completedRows st).filterMap rowEntry

/-- Observable file-system state around `_atomic_write_yaml`: the contents (as
data) of the destination path and of the temporary file. -/
structure FileState where
  main : Option (List PyVal)
  tmp : Option (List PyVal)
  deriving DecidableEq

/-- Model of `taskdb._atomic_write_yaml` as the sequence of observable states:
`mkstemp` creates an empty temporary file, the data is written to it (observed
here after each entry), and one `os.rename` installs it as the destination. -/
def atomic_write_yaml (data : List PyVal) (fs0 : FileState) : List FileState :=
  fs0 :: (List.range (data.length + 1)).map (fun i => { fs0 with tmp := some (data.take i) })
    ++ [{ main := some data, tmp := none }]

/-! ## Worker loop model

`worker.worker_loop`, with the user function and the config merge abstracted
as one function `run1 : PyVal → Except String PyVal` standing for
`lambda task: func(merge_task_into_cfg(cfg, task, task_to))`, where an
exception with message `e` is `Except.error e` (the loop stores `str(e)`).
The loop is indexed by fuel; `now` advances by the 5-second backoff sleep on
an idle iteration and by one on a working iteration. -/

/-- One observable action of a worker-loop iteration. -/
inductive WAct where
  | ranOk : PyVal → WAct
  | ranErr : PyVal → String → WAct
  | slept : Nat → WAct
  | stopped : WAct
  deriving DecidableEq

/-- Model of `worker.worker_loop`: claim; then the source tests
`if task is None:` — which matches a claim miss AND a successfully claimed
row whose payload is the value `None` (`yaml.safe_load` of the stored
`null` document), since the two are indistinguishable to the caller — and
on it stops if `pending_count` is zero else sleeps 5 and retries (a claimed
`None`-payload row is thus left `running` and its function never runs); on
any other task it runs it and records success via `finish_task(result=..)`
or failure via `finish_task(error=str(e))`, never propagating the error.
Returns the actions, the final store, and whether the loop reached its
`break` (`false` means the fuel ran out first). -/
def worker_loop (run1 : PyVal → Except String PyVal) (node : String) :
    Nat → Store → Nat → List WAct × Store × Bool
  | 0, st, _ => ([], st, false)
  | fuel + 1, st, now =>
    match claim_next_task st node now with
    | (none, st1) =>
      if pending_count st1 = 0 then ([.stopped], st1, true)
      else
        let r := worker_loop run1 node fuel st1 (now + 5)
        (.slept 5 :: r.1, r.2)
    | (some PyVal.pyNone, st1) =>
      if pending_count st1 = 0 then ([.stopped], st1, true)
      else
        let r := worker_loop run1 node fuel st1 (now + 5)
        (.slept 5 :: r.1, r.2)
    | (some task, st1) =>
      match run1 task with
      | .ok res =>
        let st2 := finish_task st1 task none (some res) now
        let r := worker_loop run1 node fuel st2 (now + 1)
        (.ranOk task :: r.1, r.2)
      | .error e =>
        let st2 := finish_task st1 task (some e) none now
        let r := worker_loop run1 node fuel st2 (now + 1)
        (.ranErr task e :: r.1, r.2)

/-! ## Executor model -/

/-- Modelled from the spec: the Executor's `run` algorithm of §4.4 (the
`ParallelExecutor` the spec, the repository's tests and `flexcli` use is not
among the source files; the `parallel.py` present holds an unrelated
done-file executor).  Steps: `enqueue` the task list; if `pending_count` is
zero, export and return with no workers launched; otherwise launch the
workers (a step that may raise, abstracted as `launch`) and in all paths
finally export the completed rows.  Returns the propagated outcome, the
number of workers launched, the final store, and the exported data. -/
def executor_run (w : Nat) (launch : Store → Except String Store) (tasks : List PyVal)
    (st0 : Store) : Except String Unit × Nat × Store × List PyVal :=
  let st1 := queue_tasks st0 tasks
  if pending_count st1 = 0 then (Except.ok (), 0, st1, dump_to_yaml st1)
  else
    match launch st1 with
    | .ok st2 => (.ok (), w, st2, dump_to_yaml st2)
    | .error e => (.error e, w, st1, dump_to_yaml st1)

/-! ## The plain flat fragment -/

/-- Printable-ASCII strings: no control characters, no characters PyYAML would
escape in double-quoted style. -/
def okStr (s : String) : Bool :=
  s.data.all (fun c => decide (32 ≤ c.toNat) && decide (c.toNat < 127))

/-- Plain YAML-safe scalars: `None`, booleans, integers, printable strings. -/
def okScalar : PyVal → Bool
  | .pyNone => true
  | .pyBool _ => true
  | .pyInt _ => true
  | .pyStr s => okStr s
  | _ => false

/-- Plain YAML-safe values in the sense of the specification: a scalar, a list
of scalars, or a mapping of scalars (with distinct printable keys). -/
def plainFlat : PyVal → Bool
  | .pyList xs => xs.all okScalar
  | .pyDict kvs =>
    kvs.all (fun kv => okStr kv.1 && okScalar kv.2) && decide ((kvs.map Prod.fst).Nodup)
  | v => okScalar v

/-- Python `==` on the flat fragment: mappings compare as key/value sets
(Python dict equality ignores insertion order; keys are unique), everything
else compares structurally. -/
def pyEquiv : PyVal → PyVal → Prop
  | .pyDict xs, .pyDict ys => xs.Perm ys
  | a, b => a = b

/-! ## Lemmas about `finish_task` -/

theorem mem_finish_task {q : TaskRec} {st : Store} {task : PyVal} {error : Option String}
    {result : Option PyVal} {now : Nat} :
    q ∈ finish_task st task error result now ↔
      ∃ r ∈ st, finishUpd (hash_task task) error (result.map yaml_dump) now r = q := by
  simp [finish_task, List.mem_map]

theorem finishUpd_hit {tid : String} {error : Option String} {rs : Option String} {now : Nat}
    {r : TaskRec} (hid : r.task_id = tid) :
    finishUpd tid error rs now r =
      { r with status := if truthyS error then Status.failed else Status.done,
               error := error, result_info := rs, ts_end := some now } := by
  simp [finishUpd, hid]

theorem finishUpd_miss {tid : String} {error : Option String} {rs : Option String} {now : Nat}
    {r : TaskRec} (hid : ¬ r.task_id = tid) :
    finishUpd tid error rs now r = r := by
  simp [finishUpd, hid]

/-- C10: calling `finish_task` with the empty string as the error marks the
record identified by the task's content hash as `done`, not `failed`: the
failed branch is reserved for truthy (non-empty) error strings. -/
theorem C10_finish_empty_error_marks_done (st : Store) (task : PyVal) (now : Nat)
    (r : TaskRec) (hr : r ∈ st) (hid : r.task_id = hash_task task) :
    (∃ q ∈ finish_task st task (some "") none now,
        q.task_id = hash_task task ∧ q.status = Status.done ∧ q.error = some "" ∧
        q.ts_end = some now) ∧
    (∀ q ∈ finish_task st task (some "") none now,
        q.task_id = hash_task task → q.status = Status.done) := by
  constructor
  · refine ⟨_, mem_finish_task.mpr ⟨r, hr, rfl⟩, ?_⟩
    rw [finishUpd_hit hid]
    simp [truthyS, hid]
  · intro q hq hqid
    rcases mem_finish_task.mp hq with ⟨r0, hr0, hup⟩
    by_cases hc : r0.task_id = hash_task task
    · rw [← hup, finishUpd_hit hc]
      simp [truthyS]
    · rw [← hup, finishUpd_miss hc] at hqid
      exact absurd hqid hc

/-- C10 witness: a concrete one-row store for task `1`: finishing with the
empty-string error yields status `done`. -/
theorem C10_witness :
    (newRec (hash_task (PyVal.pyInt 1)) (yaml_dump (PyVal.pyInt 1)) ∈
      ([newRec (hash_task (PyVal.pyInt 1)) (yaml_dump (PyVal.pyInt 1))] : Store)) ∧
    ((newRec (hash_task (PyVal.pyInt 1)) (yaml_dump (PyVal.pyInt 1))).task_id =
      hash_task (PyVal.pyInt 1)) ∧
    ((∃ q ∈ finish_task [newRec (hash_task (PyVal.pyInt 1)) (yaml_dump (PyVal.pyInt 1))]
        (PyVal.pyInt 1) (some "") none 5,
        q.task_id = hash_task (PyVal.pyInt 1) ∧ q.status = Status.done ∧ q.error = some "" ∧
        q.ts_end = some 5) ∧
    (∀ q ∈ finish_task [newRec (hash_task (PyVal.pyInt 1)) (yaml_dump (PyVal.pyInt 1))]
        (PyVal.pyInt 1) (some "") none 5,
        q.task_id = hash_task (PyVal.pyInt 1) → q.status = Status.done)) :=
  ⟨List.mem_singleton.mpr rfl, rfl,
    C10_finish_empty_error_marks_done
      [newRec (hash_task (PyVal.pyInt 1)) (yaml_dump (PyVal.pyInt 1))]
      (PyVal.pyInt 1) 5
      (newRec (hash_task (PyVal.pyInt 1)) (yaml_dump (PyVal.pyInt 1)))
      (List.mem_singleton.mpr rfl) rfl⟩

/-- C6 counterexample: with the error argument set (to the empty string) on a
present record, `finish_task` marks the record `done`, not `failed` as the
claim's "failed when error is set" reading requires. -/
theorem C6_counterexample :
    ((finish_task [newRec (hash_task (PyVal.pyInt 7)) (yaml_dump (PyVal.pyInt 7))]
        (PyVal.pyInt 7) (some "") none 3).map (fun r => r.status) = [Status.done]) ∧
    (some "" ≠ (none : Option String)) ∧ Status.done ≠ Status.failed :=
  ⟨by decide, by decide, by decide⟩

/-- C6 (amended): for every task present in the store, `finish_task` updates
the record identified by the task's content hash unconditionally on its
current status, marking it `done` when the error is none or empty and
`failed` when the error is a non-empty string, stamping `ts_end`, storing the
serialized result and the error, and leaving every other record unchanged. -/
theorem C6_finish_postcondition (st : Store) (task : PyVal) (error : Option String)
    (result : Option PyVal) (now : Nat) (r : TaskRec) (hr : r ∈ st)
    (hid : r.task_id = hash_task task) :
    (∃ q ∈ finish_task st task error result now,
        q.task_id = hash_task task ∧
        ((error = none ∨ error = some "") → q.status = Status.done) ∧
        (∀ s, error = some s → s ≠ "" → q.status = Status.failed) ∧
        q.error = error ∧ q.result_info = result.map yaml_dump ∧ q.ts_end = some now ∧
        q.task_info = r.task_info ∧ q.node = r.node ∧ q.ts_start = r.ts_start) ∧
    (∀ q ∈ st, q.task_id ≠ hash_task task → q ∈ finish_task st task error result now) ∧
    (finish_task st task error result now).length = st.length := by
  refine ⟨⟨_, mem_finish_task.mpr ⟨r, hr, rfl⟩, ?_⟩, ?_, ?_⟩
  · rw [finishUpd_hit hid]
    refine ⟨hid, ?_, ?_, rfl, rfl, rfl, rfl, rfl, rfl⟩
    · rintro (he | he) <;> subst he <;> simp [truthyS]
    · rintro s rfl hs
      simp [truthyS, hs]
  · intro q hq hqid
    exact mem_finish_task.mpr ⟨q, hq, finishUpd_miss hqid⟩
  · simp [finish_task]

/-- C6 witness: the amended postcondition evaluated on a concrete one-row
store for task `7` with a non-empty error string. -/
theorem C6_witness :
    (newRec (hash_task (PyVal.pyInt 7)) (yaml_dump (PyVal.pyInt 7)) ∈
      ([newRec (hash_task (PyVal.pyInt 7)) (yaml_dump (PyVal.pyInt 7))] : Store)) ∧
    ((∃ q ∈ finish_task [newRec (hash_task (PyVal.pyInt 7)) (yaml_dump (PyVal.pyInt 7))]
        (PyVal.pyInt 7) (some "boom") none 4,
        q.task_id = hash_task (PyVal.pyInt 7) ∧
        ((some "boom" = (none : Option String) ∨ some "boom" = some "") →
          q.status = Status.done) ∧
        (∀ s, some "boom" = some s → s ≠ "" → q.status = Status.failed) ∧
        q.error = some "boom" ∧ q.result_info = (none : Option PyVal).map yaml_dump ∧
        q.ts_end = some 4 ∧
        q.task_info = (newRec (hash_task (PyVal.pyInt 7)) (yaml_dump (PyVal.pyInt 7))).task_info ∧
        q.node = (newRec (hash_task (PyVal.pyInt 7)) (yaml_dump (PyVal.pyInt 7))).node ∧
        q.ts_start = (newRec (hash_task (PyVal.pyInt 7)) (yaml_dump (PyVal.pyInt 7))).ts_start) ∧
      (∀ q ∈ ([newRec (hash_task (PyVal.pyInt 7)) (yaml_dump (PyVal.pyInt 7))] : Store),
        q.task_id ≠ hash_task (PyVal.pyInt 7) →
          q ∈ finish_task [newRec (hash_task (PyVal.pyInt 7)) (yaml_dump (PyVal.pyInt 7))]
            (PyVal.pyInt 7) (some "boom") none 4) ∧
      (finish_task [newRec (hash_task (PyVal.pyInt 7)) (yaml_dump (PyVal.pyInt 7))]
        (PyVal.pyInt 7) (some "boom") none 4).length =
        ([newRec (hash_task (PyVal.pyInt 7)) (yaml_dump (PyVal.pyInt 7))] : Store).length) :=
  ⟨List.mem_singleton.mpr rfl,
    C6_finish_postcondition
      [newRec (hash_task (PyVal.pyInt 7)) (yaml_dump (PyVal.pyInt 7))]
      (PyVal.pyInt 7) (some "boom") none 4
      (newRec (hash_task (PyVal.pyInt 7)) (yaml_dump (PyVal.pyInt 7)))
      (List.mem_singleton.mpr rfl) rfl⟩

/-! ## Lemmas about `queue_tasks` -/

theorem queue_tasks_nil (st : Store) : queue_tasks st [] = st := rfl

theorem queue_tasks_cons (st : Store) (t : PyVal) (ts : List PyVal) :
    queue_tasks st (t :: ts) = queue_tasks (insertTask st t) ts := rfl

theorem hasId_append (st ext : Store) (tid : String) :
    hasId (st ++ ext) tid = (hasId st tid || hasId ext tid) := by
  simp [hasId, List.any_append]

theorem insertTask_eq (st : Store) (t : PyVal) :
    insertTask st t = st ∨
      (insertTask st t = st ++ [newRec (hash_task t) (yaml_dump t)] ∧
        hasId st (hash_task t) = false) := by
  by_cases h : hasId st (hash_task t)
  · exact Or.inl (by simp [insertTask, h])
  · exact Or.inr ⟨by simp [insertTask, h], by simp [h]⟩

theorem hasId_insertTask_self (st : Store) (t : PyVal) :
    hasId (insertTask st t) (hash_task t) = true := by
  by_cases h : hasId st (hash_task t)
  · simp [insertTask, h]
  · rw [insertTask, if_neg h, hasId_append, Bool.or_eq_true]
    right
    simp [hasId, newRec]

theorem hasId_insertTask_mono (st : Store) (t : PyVal) (tid : String)
    (h : hasId st tid = true) : hasId (insertTask st t) tid = true := by
  rcases insertTask_eq st t with he | ⟨he, _⟩
  · rw [he]; exact h
  · rw [he, hasId_append, h]; rfl

theorem hasId_queue_tasks_mono (ts : List PyVal) (st : Store) (tid : String)
    (h : hasId st tid = true) : hasId (queue_tasks st ts) tid = true := by
  induction ts generalizing st with
  | nil => exact h
  | cons t ts ih => exact ih (insertTask st t) (hasId_insertTask_mono st t tid h)

theorem hasId_queue_tasks_of_mem (ts : List PyVal) (st : Store) (t : PyVal) (ht : t ∈ ts) :
    hasId (queue_tasks st ts) (hash_task t) = true := by
  induction ts generalizing st with
  | nil => cases ht
  | cons u ts ih =>
    rcases List.mem_cons.mp ht with rfl | ht2
    · exact hasId_queue_tasks_mono ts (insertTask st t) _ (hasId_insertTask_self st t)
    · exact ih (insertTask st u) ht2

theorem queue_tasks_fixed (ts : List PyVal) (st : Store)
    (h : ∀ t ∈ ts, hasId st (hash_task t) = true) : queue_tasks st ts = st := by
  induction ts with
  | nil => rfl
  | cons t ts ih =>
    have hins : insertTask st t = st := by simp [insertTask, h t (List.mem_cons_self t ts)]
    rw [queue_tasks_cons, hins]
    exact ih (fun u hu => h u (List.mem_cons_of_mem t hu))

theorem queue_tasks_ext (ts : List PyVal) (st : Store) :
    ∃ ext, queue_tasks st ts = st ++ ext ∧
      ∀ r ∈ ext, r.status = .pending ∧ r.result_info = none ∧ r.error = none ∧
        hasId st r.task_id = false := by
  induction ts generalizing st with
  | nil => exact ⟨[], by simp [queue_tasks_nil], by simp⟩
  | cons t ts ih =>
    rcases insertTask_eq st t with he | ⟨he, hnew⟩
    · rcases ih (insertTask st t) with ⟨ext, hq, hp⟩
      rw [he] at hq hp
      exact ⟨ext, by rw [queue_tasks_cons, he, hq], hp⟩
    · rcases ih (insertTask st t) with ⟨ext, hq, hp⟩
      rw [he] at hq hp
      refine ⟨newRec (hash_task t) (yaml_dump t) :: ext, ?_, ?_⟩
      · rw [queue_tasks_cons, he, hq, List.append_assoc]
        rfl
      · intro r hr
        rcases List.mem_cons.mp hr with rfl | hr2
        · exact ⟨rfl, rfl, rfl, hnew⟩
        · rcases hp r hr2 with ⟨h1, h2, h3, h4⟩
          rw [hasId_append, Bool.or_eq_false_iff] at h4
          exact ⟨h1, h2, h3, h4.1⟩

/-- C3: `queue_tasks` is an idempotent insert-if-absent: it appends `pending`
records only for content hashes not already present, leaves every existing
record byte-for-byte unchanged (the original rows are a verbatim prefix of the
result), and running it twice with the same task list yields exactly the rows
(and row count) of running it once. -/
theorem C3_idempotent_enqueue (st : Store) (ts : List PyVal) :
    (∃ ext, queue_tasks st ts = st ++ ext ∧
        ∀ r ∈ ext, r.status = .pending ∧ r.result_info = none ∧ r.error = none ∧
          hasId st r.task_id = false) ∧
    queue_tasks (queue_tasks st ts) ts = queue_tasks st ts ∧
    (queue_tasks (queue_tasks st ts) ts).length = (queue_tasks st ts).length := by
  refine ⟨queue_tasks_ext ts st, ?_, ?_⟩
  · exact queue_tasks_fixed ts _ (fun t ht => hasId_queue_tasks_of_mem ts st t ht)
  · rw [queue_tasks_fixed ts _ (fun t ht => hasId_queue_tasks_of_mem ts st t ht)]

/-! ## Primary-key uniqueness of the store -/

theorem hasId_iff_mem_ids (st : Store) (tid : String) :
    hasId st tid = true ↔ tid ∈ st.map (fun r => r.task_id) := by
  simp only [hasId, List.any_eq_true, List.mem_map, decide_eq_true_eq]

theorem insertTask_nodup (st : Store) (t : PyVal)
    (h : (st.map (fun r => r.task_id)).Nodup) :
    ((insertTask st t).map (fun r => r.task_id)).Nodup := by
  rcases insertTask_eq st t with he | ⟨he, hnew⟩
  · rw [he]; exact h
  · rw [he, List.map_append]
    simp only [List.map_cons, List.map_nil, newRec]
    rw [List.nodup_append]
    refine ⟨h, List.nodup_singleton _, ?_⟩
    intro tid htid
    simp only [List.mem_singleton]
    intro heq
    subst heq
    rw [← hasId_iff_mem_ids] at htid
    rw [htid] at hnew
    cases hnew

theorem queue_tasks_nodup (ts : List PyVal) (st : Store)
    (h : (st.map (fun r => r.task_id)).Nodup) :
    ((queue_tasks st ts).map (fun r => r.task_id)).Nodup := by
  induction ts generalizing st with
  | nil => exact h
  | cons t ts ih => exact ih (insertTask st t) (insertTask_nodup st t h)

/-- C4 counterexample: the int task `1` and the string task `"1"` differ as
values, yet `str()` maps both to `"1"` so they hash alike and enqueueing both
yields a single record, refuting "any two tasks differing in any field
produce two distinct records". -/
theorem C4_counterexample :
    (PyVal.pyInt 1 ≠ PyVal.pyStr "1") ∧
    pyToString (PyVal.pyInt 1) = pyToString (PyVal.pyStr "1") ∧
    (queue_tasks [] [PyVal.pyInt 1, PyVal.pyStr "1"]).length = 1 :=
  ⟨by decide, by decide, by decide⟩

/-- C4 (amended): tasks with identical `str()` serializations hash to the same
task_id and collapse to one record (so a task list with duplicated content
enqueues each distinct payload once — ids are always distinct); two tasks
produce two distinct records when their content hashes differ (which fields
differing does not guarantee: equal `str()`, or a SHA-1 collision, collapses
them). -/
theorem C4_content_addressing (t1 t2 : PyVal) (st : Store) (ts : List PyVal) :
    (pyToString t1 = pyToString t2 →
      hash_task t1 = hash_task t2 ∧
        insertTask (insertTask st t1) t2 = insertTask st t1) ∧
    ((queue_tasks [] ts).map (fun r => r.task_id)).Nodup ∧
    (hash_task t1 ≠ hash_task t2 →
      (queue_tasks [] [t1, t2]).map (fun r => r.task_id) = [hash_task t1, hash_task t2]) := by
  refine ⟨?_, queue_tasks_nodup ts [] (by simp), ?_⟩
  · intro hsame
    have hh : hash_task t1 = hash_task t2 := by
      unfold hash_task
      rw [hsame]
    refine ⟨hh, ?_⟩
    have hpres : hasId (insertTask st t1) (hash_task t2) = true := by
      rw [← hh]; exact hasId_insertTask_self st t1
    set st1 := insertTask st t1 with hst1
    simp [insertTask, hpres]
  · intro hne
    have h1 : hasId [] (hash_task t1) = false := rfl
    have hq1 : insertTask [] t1 = [newRec (hash_task t1) (yaml_dump t1)] := by
      simp [insertTask, hasId]
    have h2 : hasId (insertTask [] t1) (hash_task t2) = false := by
      rw [hq1]
      simp [hasId, newRec]
      exact hne
    have hq2 : insertTask (insertTask [] t1) t2 =
        [newRec (hash_task t1) (yaml_dump t1), newRec (hash_task t2) (yaml_dump t2)] := by
      rw [insertTask, if_neg (by rw [h2]; exact Bool.false_ne_true), hq1]
      rfl
    show (insertTask (insertTask [] t1) t2).map (fun r => r.task_id) = _
    rw [hq2]
    rfl

/-- C4 witness: `1` and `"1"` collapse (equal hash, single record); `1` and
`2` hash differently and produce two records with the two hashes. -/
theorem C4_witness :
    ((hash_task (PyVal.pyInt 1) = hash_task (PyVal.pyStr "1") ∧
      insertTask (insertTask [] (PyVal.pyInt 1)) (PyVal.pyStr "1") =
        insertTask [] (PyVal.pyInt 1))) ∧
    ((queue_tasks [] [PyVal.pyInt 1, PyVal.pyInt 2]).map (fun r => r.task_id) =
      [hash_task (PyVal.pyInt 1), hash_task (PyVal.pyInt 2)]) :=
  ⟨(C4_content_addressing (PyVal.pyInt 1) (PyVal.pyStr "1") [] []).1 (by decide),
   (C4_content_addressing (PyVal.pyInt 1) (PyVal.pyInt 2) [] []).2.2 (by decide)⟩

/-! ## Lemmas about `claim_next_task` -/

/-- The primary key the claim statement's inner SELECT picks: the first
pending row's id (an analysis observer, not a source function). -/
def claimedId (st : Store) : Option String :=
  (st.find? (fun r => r.status = .pending)).map (fun r => r.task_id)

theorem setRunning_task_id (node : String) (now : Nat) (tid : String) (r : TaskRec) :
    (setRunning node now tid r).task_id = r.task_id := by
  unfold setRunning
  split <;> rfl

theorem ids_map_setRunning (st : Store) (node : String) (now : Nat) (tid : String) :
    (st.map (setRunning node now tid)).map (fun r => r.task_id) =
      st.map (fun r => r.task_id) := by
  rw [List.map_map]
  exact List.map_congr_left (fun r _ => setRunning_task_id node now tid r)

theorem pending_count_eq_zero_iff (st : Store) :
    pending_count st = 0 ↔ st.find? (fun r => r.status = .pending) = none := by
  rw [pending_count, List.length_eq_zero, List.filter_eq_nil_iff, List.find?_eq_none]

theorem claim_next_task_of_none (st : Store) (node : String) (now : Nat)
    (h : st.find? (fun r => r.status = .pending) = none) :
    claim_next_task st node now = (none, st) := by
  simp [claim_next_task, h]

theorem claim_next_task_of_some (st : Store) (node : String) (now : Nat) (r : TaskRec)
    (h : st.find? (fun r => r.status = .pending) = some r) :
    claim_next_task st node now =
      (yaml_safe_load r.task_info, st.map (setRunning node now r.task_id)) := by
  simp [claim_next_task, h]

theorem setRunning_of_ne (node : String) (now : Nat) (tid : String) (r : TaskRec)
    (h : r.task_id ≠ tid) : setRunning node now tid r = r := by
  simp [setRunning, h]

theorem claimed_id_running (st : Store) (node : String) (now : Nat) (tid : String) :
    ∀ q ∈ st.map (setRunning node now tid), q.task_id = tid → q.status = .running := by
  intro q hq hqid
  rcases List.mem_map.mp hq with ⟨r0, hr0, hup⟩
  by_cases hc : r0.task_id = tid
  · rw [← hup]
    simp [setRunning, hc]
  · rw [← hup, setRunning_of_ne node now tid r0 hc] at hqid
    exact absurd hqid hc

theorem pending_mem_claim_store (st : Store) (node : String) (now : Nat) (tid : String)
    (q : TaskRec) (hq : q ∈ st.map (setRunning node now tid))
    (hp : q.status = .pending) : q ∈ st := by
  rcases List.mem_map.mp hq with ⟨r0, hr0, hup⟩
  by_cases hc : r0.task_id = tid
  · rw [← hup] at hp
    simp [setRunning, hc] at hp
  · rw [← hup, setRunning_of_ne node now tid r0 hc]
    exact hr0

theorem filter_pending_claim (st : Store) (node : String) (now : Nat) (r : TaskRec)
    (hnodup : (st.map (fun q => q.task_id)).Nodup)
    (hfind : st.find? (fun q => q.status = .pending) = some r) :
    st.filter (fun q => q.status = .pending) =
      r :: (st.map (setRunning node now r.task_id)).filter (fun q => q.status = .pending) := by
  induction st with
  | nil => cases hfind
  | cons q qs ih =>
    rw [List.map_cons, List.nodup_cons] at hnodup
    by_cases hp : q.status = .pending
    · rw [List.find?_cons_of_pos _ (by simpa using hp)] at hfind
      have hrq : q = r := by injection hfind
      subst hrq
      rw [List.filter_cons_of_pos (by simpa using hp), List.map_cons,
        List.filter_cons_of_neg (by simp [setRunning])]
      congr 1
      have hmap : qs.map (setRunning node now q.task_id) = qs := by
        conv_rhs => rw [← List.map_id qs]
        apply List.map_congr_left
        intro x hx
        apply setRunning_of_ne
        intro hxe
        exact hnodup.1 (hxe ▸ List.mem_map_of_mem (fun z => z.task_id) hx)
      rw [hmap]
    · rw [List.find?_cons_of_neg _ (by simpa using hp)] at hfind
      have hrid : q.task_id ≠ r.task_id := by
        intro he
        exact hnodup.1 (he ▸ List.mem_map_of_mem (fun z => z.task_id)
          (List.mem_of_find?_eq_some hfind))
      rw [List.filter_cons_of_neg (by simpa using hp), List.map_cons,
        setRunning_of_ne node now r.task_id q hrid,
        List.filter_cons_of_neg (by simpa using hp)]
      exact ih hnodup.2 hfind

theorem pending_count_claim (st : Store) (node : String) (now : Nat) (r : TaskRec)
    (hnodup : (st.map (fun q => q.task_id)).Nodup)
    (hfind : st.find? (fun q => q.status = .pending) = some r) :
    pending_count (st.map (setRunning node now r.task_id)) + 1 = pending_count st := by
  unfold pending_count
  rw [filter_pending_claim st node now r hnodup hfind]
  rfl

/-! ## Claim traces and drains -/

/-- An interleaving of `claim_next_task` calls (each call atomic): the callers'
node names and call times, applied in sequence to the shared store; returns
each call's claimed row id (an analysis observer) and the final store. -/
def runClaims : List (String × Nat) → Store → List (Option String) × Store
  | [], st => ([], st)
  | (node, now) :: rest, st =>
    let r := runClaims rest (claim_next_task st node now).2
    (claimedId st :: r.1, r.2)

theorem claimedId_none_iff (st : Store) :
    claimedId st = none ↔ st.find? (fun r => r.status = .pending) = none := by
  unfold claimedId
  cases st.find? (fun r => r.status = .pending) <;> simp

theorem claimedId_some (st : Store) (tid : String) (h : claimedId st = some tid) :
    ∃ r ∈ st, r.task_id = tid ∧ r.status = .pending ∧
      st.find? (fun q => q.status = .pending) = some r := by
  unfold claimedId at h
  cases hfind : st.find? (fun r => r.status = .pending) with
  | none => rw [hfind] at h; cases h
  | some r =>
    rw [hfind] at h
    simp only [Option.map_some'] at h
    refine ⟨r, List.mem_of_find?_eq_some hfind, Option.some.inj h, ?_, rfl⟩
    have := List.find?_some hfind
    simpa using this

theorem runClaims_claimed_pending (calls : List (String × Nat)) (st : Store) :
    ∀ tid ∈ (runClaims calls st).1.filterMap id,
      ∃ r ∈ st, r.task_id = tid ∧ r.status = .pending := by
  induction calls generalizing st with
  | nil => intro tid h; cases h
  | cons c rest ih =>
    obtain ⟨node, now⟩ := c
    intro tid h
    rw [runClaims] at h
    cases hcid : claimedId st with
    | none =>
      rw [hcid] at h
      simp only [List.filterMap_cons, id_eq] at h
      have hst1 : (claim_next_task st node now).2 = st := by
        rw [claim_next_task_of_none st node now ((claimedId_none_iff st).mp hcid)]
      rw [hst1] at h
      exact ih st tid h
    | some tid0 =>
      rw [hcid] at h
      simp only [List.filterMap_cons, id_eq] at h
      rcases List.mem_cons.mp h with rfl | h2
      · rcases claimedId_some st tid hcid with ⟨r, hr, hid, hp, _⟩
        exact ⟨r, hr, hid, hp⟩
      · rcases claimedId_some st tid0 hcid with ⟨r, hr, hid, hp, hfind⟩
        have hst1 : (claim_next_task st node now).2 = st.map (setRunning node now r.task_id) := by
          rw [claim_next_task_of_some st node now r hfind]
        rw [hst1] at h2
        rcases ih _ tid h2 with ⟨r1, hr1, hid1, hp1⟩
        exact ⟨r1, pending_mem_claim_store st node now r.task_id r1 hr1 hp1, hid1, hp1⟩

theorem runClaims_nodup (calls : List (String × Nat)) (st : Store) :
    ((runClaims calls st).1.filterMap id).Nodup := by
  induction calls generalizing st with
  | nil => simp [runClaims]
  | cons c rest ih =>
    obtain ⟨node, now⟩ := c
    rw [runClaims]
    cases hcid : claimedId st with
    | none =>
      simp only [List.filterMap_cons, id_eq]
      exact ih _
    | some tid0 =>
      simp only [List.filterMap_cons, id_eq]
      rw [List.nodup_cons]
      refine ⟨?_, ih _⟩
      intro hmem
      rcases claimedId_some st tid0 hcid with ⟨r, hr, hid, hp, hfind⟩
      have hst1 : (claim_next_task st node now).2 = st.map (setRunning node now r.task_id) := by
        rw [claim_next_task_of_some st node now r hfind]
      rw [hst1] at hmem
      rcases runClaims_claimed_pending rest _ tid0 hmem with ⟨r1, hr1, hid1, hp1⟩
      have hrun : r1.status = .running :=
        claimed_id_running st node now r.task_id r1 hr1 (hid ▸ hid1)
      rw [hp1] at hrun
      cases hrun

/-- A solo full drain: keep claiming until no pending row remains, collecting
the claimed row ids (fuel-indexed; `pending_count` many steps suffice). -/
def drainClaims (node : String) : Nat → Store → Nat → List String × Store
  | 0, st, _ => ([], st)
  | fuel + 1, st, now =>
    match st.find? (fun r => r.status = .pending) with
    | none => ([], st)
    | some r =>
      let d := drainClaims node fuel (claim_next_task st node now).2 (now + 1)
      (r.task_id :: d.1, d.2)

theorem drainClaims_eq (node : String) (fuel : Nat) (st : Store) (now : Nat)
    (hnodup : (st.map (fun r => r.task_id)).Nodup)
    (hfuel : pending_count st ≤ fuel) :
    (drainClaims node fuel st now).1 =
      (st.filter (fun r => r.status = .pending)).map (fun r => r.task_id) ∧
    pending_count (drainClaims node fuel st now).2 = 0 := by
  induction fuel generalizing st now with
  | zero =>
    have h0 : pending_count st = 0 := Nat.le_zero.mp hfuel
    have hfind := (pending_count_eq_zero_iff st).mp h0
    have hfilter : st.filter (fun r => r.status = .pending) = [] := by
      rw [List.filter_eq_nil_iff]
      intro x hx
      have := List.find?_eq_none.mp hfind x hx
      simpa using this
    rw [drainClaims, hfilter]
    exact ⟨rfl, h0⟩
  | succ fuel ih =>
    cases hfind : st.find? (fun r => r.status = .pending) with
    | none =>
      have h0 : pending_count st = 0 := (pending_count_eq_zero_iff st).mpr hfind
      have hfilter : st.filter (fun r => r.status = .pending) = [] := by
        rw [List.filter_eq_nil_iff]
        intro x hx
        have := List.find?_eq_none.mp hfind x hx
        simpa using this
      rw [drainClaims, hfind, hfilter]
      exact ⟨rfl, h0⟩
    | some r =>
      have hst1 : (claim_next_task st node now).2 = st.map (setRunning node now r.task_id) := by
        rw [claim_next_task_of_some st node now r hfind]
      have hcount := pending_count_claim st node now r hnodup hfind
      have hnodup1 : ((st.map (setRunning node now r.task_id)).map
          (fun q => q.task_id)).Nodup := by
        rw [ids_map_setRunning]; exact hnodup
      have hfuel1 : pending_count (st.map (setRunning node now r.task_id)) ≤ fuel := by
        omega
      have hrec := ih (st.map (setRunning node now r.task_id)) (now + 1) hnodup1 hfuel1
      rw [drainClaims, hfind]
      simp only [hst1]
      refine ⟨?_, hrec.2⟩
      rw [filter_pending_claim st node now r hnodup hfind, List.map_cons, hrec.1]

theorem mem_queue_tasks_cases (ts : List PyVal) (st : Store) (r : TaskRec)
    (h : r ∈ queue_tasks st ts) :
    r ∈ st ∨ ∃ t ∈ ts, r = newRec (hash_task t) (yaml_dump t) := by
  induction ts generalizing st with
  | nil => exact Or.inl h
  | cons t ts ih =>
    rw [queue_tasks_cons] at h
    rcases ih (insertTask st t) h with h1 | ⟨u, hu, hru⟩
    · rcases insertTask_eq st t with he | ⟨he, _⟩
      · rw [he] at h1; exact Or.inl h1
      · rw [he] at h1
        rcases List.mem_append.mp h1 with h2 | h2
        · exact Or.inl h2
        · exact Or.inr ⟨t, List.mem_cons_self t ts, List.mem_singleton.mp h2⟩
    · exact Or.inr ⟨u, List.mem_cons_of_mem t hu, hru⟩

theorem mem_queue_tasks_ids (ts : List PyVal) (tid : String) :
    tid ∈ (queue_tasks [] ts).map (fun r => r.task_id) ↔ ∃ t ∈ ts, hash_task t = tid := by
  constructor
  · intro h
    rcases List.mem_map.mp h with ⟨r, hr, hid⟩
    rcases mem_queue_tasks_cases ts [] r hr with h1 | ⟨t, ht, rfl⟩
    · cases h1
    · exact ⟨t, ht, hid⟩
  · rintro ⟨t, ht, rfl⟩
    rw [← hasId_iff_mem_ids]
    exact hasId_queue_tasks_of_mem ts [] t ht

theorem queue_tasks_all_pending (ts : List PyVal) :
    (queue_tasks [] ts).filter (fun r => r.status = .pending) = queue_tasks [] ts := by
  rcases queue_tasks_ext ts [] with ⟨ext, hq, hp⟩
  rw [List.nil_append] at hq
  rw [hq, List.filter_eq_self]
  intro r hr
  simpa using (hp r hr).1

theorem filter_id_le_one (st : Store) (tid : String)
    (hnodup : (st.map (fun r => r.task_id)).Nodup) :
    (st.filter (fun r => r.task_id = tid)).length ≤ 1 := by
  induction st with
  | nil => simp
  | cons q qs ih =>
    rw [List.map_cons, List.nodup_cons] at hnodup
    by_cases hq : q.task_id = tid
    · rw [List.filter_cons_of_pos (by simpa using hq)]
      have hnone : qs.filter (fun r => r.task_id = tid) = [] := by
        rw [List.filter_eq_nil_iff]
        intro x hx hxid
        apply hnodup.1
        rw [hq, ← (by simpa using hxid : x.task_id = tid)]
        exact List.mem_map_of_mem (fun r => r.task_id) hx
      rw [hnone]
      simp
    · rw [List.filter_cons_of_neg (by simpa using hq)]
      exact ih hnodup.2

/-- C1: `claim_next_task` atomically claims at most one pending record per
call — returning its deserialized payload and stamping status `running`, the
owner and the start time, all other records untouched — no two calls of any
interleaving ever claim the same row id, a queue-built store holds at most one
record per task id (so at most one worker can hold a `running` claim on it),
and a full drain of a freshly enqueued task list claims each distinct task's
record exactly once. -/
theorem C1_exactly_once_claim (st : Store) (node : String) (now : Nat)
    (calls : List (String × Nat)) (ts : List PyVal) :
    (st.find? (fun r => r.status = .pending) = none →
      claim_next_task st node now = (none, st)) ∧
    (∀ r, st.find? (fun r => r.status = .pending) = some r →
      r ∈ st ∧ r.status = .pending ∧
      (claim_next_task st node now).1 = yaml_safe_load r.task_info ∧
      (claim_next_task st node now).2 = st.map (setRunning node now r.task_id) ∧
      (∀ q ∈ (claim_next_task st node now).2, q.task_id = r.task_id →
        q.status = .running ∧ q.node = some node ∧ q.ts_start = some now) ∧
      (∀ q ∈ st, q.task_id ≠ r.task_id → q ∈ (claim_next_task st node now).2)) ∧
    ((runClaims calls st).1.filterMap id).Nodup ∧
    (∀ tid, ((queue_tasks [] ts).filter (fun r => r.task_id = tid)).length ≤ 1) ∧
    ((drainClaims node (pending_count (queue_tasks [] ts)) (queue_tasks [] ts) now).1 =
        (queue_tasks [] ts).map (fun r => r.task_id) ∧
      (drainClaims node (pending_count (queue_tasks [] ts)) (queue_tasks [] ts) now).1.Nodup ∧
      (∀ tid,
        tid ∈ (drainClaims node (pending_count (queue_tasks [] ts))
            (queue_tasks [] ts) now).1 ↔ ∃ t ∈ ts, hash_task t = tid) ∧
      pending_count
        (drainClaims node (pending_count (queue_tasks [] ts)) (queue_tasks [] ts) now).2 = 0) := by
  have hqnodup := queue_tasks_nodup ts [] (by simp)
  have hdrain := drainClaims_eq node (pending_count (queue_tasks [] ts)) (queue_tasks [] ts)
    now hqnodup (Nat.le_refl _)
  have hdrain1 : (drainClaims node (pending_count (queue_tasks [] ts))
      (queue_tasks [] ts) now).1 = (queue_tasks [] ts).map (fun r => r.task_id) := by
    rw [hdrain.1, queue_tasks_all_pending]
  refine ⟨claim_next_task_of_none st node now, ?_, runClaims_nodup calls st,
    fun tid => filter_id_le_one _ tid hqnodup, hdrain1, ?_, ?_, hdrain.2⟩
  · intro r hfind
    have hclaim := claim_next_task_of_some st node now r hfind
    refine ⟨List.mem_of_find?_eq_some hfind, by simpa using List.find?_some hfind,
      by rw [hclaim], by rw [hclaim], ?_, ?_⟩
    · intro q hq hqid
      rw [hclaim] at hq
      rcases List.mem_map.mp hq with ⟨r0, hr0, hup⟩
      by_cases hc : r0.task_id = r.task_id
      · rw [← hup]
        simp [setRunning, hc]
      · rw [← hup, setRunning_of_ne node now r.task_id r0 hc] at hqid
        exact absurd hqid hc
    · intro q hq hqid
      rw [hclaim]
      have := List.mem_map_of_mem (setRunning node now r.task_id) hq
      rwa [setRunning_of_ne node now r.task_id q hqid] at this
  · rw [hdrain1]
    exact hqnodup
  · intro tid
    rw [hdrain1]
    exact mem_queue_tasks_ids ts tid

/-- C1 witness: a concrete one-task store: the claim returns the payload `9`
and marks the row running; draining the one-task list `[9]` claims exactly its
hash once. -/
theorem C1_witness :
    (([] : Store).find? (fun r => r.status = .pending) = none →
      claim_next_task [] "w" 2 = (none, [])) ∧
    (([] : Store).find? (fun r => r.status = .pending) = none) ∧
    ((newRec (hash_task (PyVal.pyInt 9)) (yaml_dump (PyVal.pyInt 9)) ∈
        queue_tasks [] [PyVal.pyInt 9]) ∧
      (queue_tasks [] [PyVal.pyInt 9]).find? (fun r => r.status = .pending) =
        some (newRec (hash_task (PyVal.pyInt 9)) (yaml_dump (PyVal.pyInt 9))) ∧
      (claim_next_task (queue_tasks [] [PyVal.pyInt 9]) "w" 2).1 =
        yaml_safe_load (newRec (hash_task (PyVal.pyInt 9)) (yaml_dump (PyVal.pyInt 9))).task_info ∧
      (drainClaims "w" (pending_count (queue_tasks [] [PyVal.pyInt 9]))
          (queue_tasks [] [PyVal.pyInt 9]) 2).1 =
        (queue_tasks [] [PyVal.pyInt 9]).map (fun r => r.task_id)) := by
  have h := C1_exactly_once_claim (queue_tasks [] [PyVal.pyInt 9]) "w" 2 [] [PyVal.pyInt 9]
  have hfind : (queue_tasks [] [PyVal.pyInt 9]).find? (fun r => r.status = .pending) =
      some (newRec (hash_task (PyVal.pyInt 9)) (yaml_dump (PyVal.pyInt 9))) := by decide
  have hb := h.2.1 (newRec (hash_task (PyVal.pyInt 9)) (yaml_dump (PyVal.pyInt 9))) hfind
  exact ⟨(C1_exactly_once_claim [] "w" 2 [] []).1, rfl,
    hb.1, hfind, hb.2.2.1, h.2.2.2.2.1⟩

/-! ## Worker-loop step equations -/

theorem worker_loop_step_stop (run1 : PyVal → Except String PyVal) (node : String)
    (fuel : Nat) (st : Store) (now : Nat)
    (hfind : st.find? (fun r => r.status = .pending) = none)
    (hzero : pending_count st = 0) :
    worker_loop run1 node (fuel + 1) st now = ([.stopped], st, true) := by
  rw [worker_loop, claim_next_task_of_none st node now hfind]
  simp [hzero]

theorem worker_loop_step_sleep (run1 : PyVal → Except String PyVal) (node : String)
    (fuel : Nat) (st st1 : Store) (now : Nat)
    (hclaim : claim_next_task st node now = (none, st1))
    (hnz : pending_count st1 ≠ 0) :
    worker_loop run1 node (fuel + 1) st now =
      (WAct.slept 5 :: (worker_loop run1 node fuel st1 (now + 5)).1,
       (worker_loop run1 node fuel st1 (now + 5)).2) := by
  rw [worker_loop, hclaim]
  simp [hnz]

theorem worker_loop_step_ok (run1 : PyVal → Except String PyVal) (node : String)
    (fuel : Nat) (st st1 : Store) (now : Nat) (task res : PyVal)
    (hclaim : claim_next_task st node now = (some task, st1))
    (hrun : run1 task = .ok res) (htask : task ≠ PyVal.pyNone) :
    worker_loop run1 node (fuel + 1) st now =
      (WAct.ranOk task ::
        (worker_loop run1 node fuel (finish_task st1 task none (some res) now) (now + 1)).1,
       (worker_loop run1 node fuel (finish_task st1 task none (some res) now) (now + 1)).2) := by
  rw [worker_loop, hclaim]
  cases task with
  | pyNone => exact absurd rfl htask
  | pyBool b => simp [hrun]
  | pyInt n => simp [hrun]
  | pyStr s => simp [hrun]
  | pyList xs => simp [hrun]
  | pyDict kvs => simp [hrun]

theorem worker_loop_step_err (run1 : PyVal → Except String PyVal) (node : String)
    (fuel : Nat) (st st1 : Store) (now : Nat) (task : PyVal) (e : String)
    (hclaim : claim_next_task st node now = (some task, st1))
    (hrun : run1 task = .error e) (htask : task ≠ PyVal.pyNone) :
    worker_loop run1 node (fuel + 1) st now =
      (WAct.ranErr task e ::
        (worker_loop run1 node fuel (finish_task st1 task (some e) none now) (now + 1)).1,
       (worker_loop run1 node fuel (finish_task st1 task (some e) none now) (now + 1)).2) := by
  rw [worker_loop, hclaim]
  cases task with
  | pyNone => exact absurd rfl htask
  | pyBool b => simp [hrun]
  | pyInt n => simp [hrun]
  | pyStr s => simp [hrun]
  | pyList xs => simp [hrun]
  | pyDict kvs => simp [hrun]

theorem worker_loop_step_halt (run1 : PyVal → Except String PyVal) (node : String)
    (fuel : Nat) (st st1 : Store) (now : Nat)
    (hclaim : claim_next_task st node now = (none, st1))
    (hzero : pending_count st1 = 0) :
    worker_loop run1 node (fuel + 1) st now = ([.stopped], st1, true) := by
  rw [worker_loop, hclaim]
  simp [hzero]

theorem worker_loop_step_sleep_none (run1 : PyVal → Except String PyVal) (node : String)
    (fuel : Nat) (st st1 : Store) (now : Nat)
    (hclaim : claim_next_task st node now = (some PyVal.pyNone, st1))
    (hnz : pending_count st1 ≠ 0) :
    worker_loop run1 node (fuel + 1) st now =
      (WAct.slept 5 :: (worker_loop run1 node fuel st1 (now + 5)).1,
       (worker_loop run1 node fuel st1 (now + 5)).2) := by
  rw [worker_loop, hclaim]
  simp [hnz]

theorem worker_loop_step_halt_none (run1 : PyVal → Except String PyVal) (node : String)
    (fuel : Nat) (st st1 : Store) (now : Nat)
    (hclaim : claim_next_task st node now = (some PyVal.pyNone, st1))
    (hzero : pending_count st1 = 0) :
    worker_loop run1 node (fuel + 1) st now = ([.stopped], st1, true) := by
  rw [worker_loop, hclaim]
  simp [hzero]

/-! ## Worker-loop drain lemmas -/

theorem pending_count_finish_le (st : Store) (task : PyVal) (error : Option String)
    (result : Option PyVal) (now : Nat) :
    pending_count (finish_task st task error result now) ≤ pending_count st := by
  unfold pending_count finish_task
  rw [← List.countP_eq_length_filter, ← List.countP_eq_length_filter, List.countP_map]
  apply List.countP_mono_left
  intro r _ hp
  simp only [Function.comp] at hp
  unfold finishUpd at hp
  by_cases hc : r.task_id = hash_task task
  · rw [if_pos hc] at hp
    simp at hp
    split at hp <;> cases hp
  · rwa [if_neg hc] at hp

theorem ids_finish_task (st : Store) (task : PyVal) (error : Option String)
    (result : Option PyVal) (now : Nat) :
    (finish_task st task error result now).map (fun r => r.task_id) =
      st.map (fun r => r.task_id) := by
  unfold finish_task
  rw [List.map_map]
  apply List.map_congr_left
  intro r _
  simp only [Function.comp]
  unfold finishUpd
  split <;> rfl

theorem worker_loop_drains (run1 : PyVal → Except String PyVal) (node : String) :
    ∀ (n : Nat) (st : Store) (now : Nat),
      pending_count st ≤ n →
      (st.map (fun r => r.task_id)).Nodup →
      (worker_loop run1 node (n + 1) st now).2.2 = true ∧
        pending_count (worker_loop run1 node (n + 1) st now).2.1 = 0 := by
  intro n
  induction n with
  | zero =>
    intro st now hle _
    have h0 : pending_count st = 0 := Nat.le_zero.mp hle
    have hfind := (pending_count_eq_zero_iff st).mp h0
    rw [worker_loop_step_stop run1 node 0 st now hfind h0]
    exact ⟨rfl, h0⟩
  | succ n ih =>
    intro st now hle hnodup
    cases hfind : st.find? (fun r => r.status = .pending) with
    | none =>
      have h0 : pending_count st = 0 := (pending_count_eq_zero_iff st).mpr hfind
      rw [worker_loop_step_stop run1 node (n + 1) st now hfind h0]
      exact ⟨rfl, h0⟩
    | some r =>
      have hclaim := claim_next_task_of_some st node now r hfind
      have hcount := pending_count_claim st node now r hnodup hfind
      have hnodup1 : ((st.map (setRunning node now r.task_id)).map
          (fun q => q.task_id)).Nodup := by
        rw [ids_map_setRunning]; exact hnodup
      have hle1 : pending_count (st.map (setRunning node now r.task_id)) ≤ n := by omega
      cases hload : yaml_safe_load r.task_info with
      | none =>
        rw [hload] at hclaim
        by_cases hz : pending_count (st.map (setRunning node now r.task_id)) = 0
        · rw [worker_loop_step_halt run1 node (n + 1) st _ now hclaim hz]
          exact ⟨rfl, hz⟩
        · rw [worker_loop_step_sleep run1 node (n + 1) st _ now hclaim hz]
          exact ih (st.map (setRunning node now r.task_id)) (now + 5) hle1 hnodup1
      | some task =>
        rw [hload] at hclaim
        by_cases htn : task = PyVal.pyNone
        · subst htn
          by_cases hz : pending_count (st.map (setRunning node now r.task_id)) = 0
          · rw [worker_loop_step_halt_none run1 node (n + 1) st _ now hclaim hz]
            exact ⟨rfl, hz⟩
          · rw [worker_loop_step_sleep_none run1 node (n + 1) st _ now hclaim hz]
            exact ih (st.map (setRunning node now r.task_id)) (now + 5) hle1 hnodup1
        · cases hrun : run1 task with
          | ok res =>
            rw [worker_loop_step_ok run1 node (n + 1) st _ now task res hclaim hrun htn]
            refine ih _ (now + 1) ?_ ?_
            · exact le_trans (pending_count_finish_le _ task none (some res) now) hle1
            · rw [ids_finish_task]; exact hnodup1
          | error e =>
            rw [worker_loop_step_err run1 node (n + 1) st _ now task e hclaim hrun htn]
            refine ih _ (now + 1) ?_ ?_
            · exact le_trans (pending_count_finish_le _ task (some e) none now) hle1
            · rw [ids_finish_task]; exact hnodup1

/-- C7: a worker stops immediately exactly when its claim yields `None` — a
claim miss, or (the source's `task is None` test) a claimed payload that is
the value `None` — and `pending_count` is zero; on a claim miss with pending
work it sleeps the fixed 5-second backoff and retries; and for any finite
task list (and any always-terminating user function) the loop reaches its
stop within `pending_count + 1` iterations, at which point the store is
drained (`pending_count = 0`). -/
theorem C7_drain_termination (run1 : PyVal → Except String PyVal) (node : String)
    (st : Store) (now fuel : Nat) (ts : List PyVal)
    (hnodup : (st.map (fun r => r.task_id)).Nodup) :
    ((worker_loop run1 node (fuel + 1) st now).1.head? = some WAct.stopped ↔
      ((claim_next_task st node now).1 = none ∨
        (claim_next_task st node now).1 = some PyVal.pyNone) ∧
        pending_count (claim_next_task st node now).2 = 0) ∧
    ((claim_next_task st node now).1 = none →
      pending_count (claim_next_task st node now).2 ≠ 0 →
      worker_loop run1 node (fuel + 1) st now =
        (WAct.slept 5 ::
          (worker_loop run1 node fuel (claim_next_task st node now).2 (now + 5)).1,
         (worker_loop run1 node fuel (claim_next_task st node now).2 (now + 5)).2)) ∧
    ((worker_loop run1 node (pending_count st + 1) st now).2.2 = true ∧
      pending_count (worker_loop run1 node (pending_count st + 1) st now).2.1 = 0) ∧
    ((worker_loop run1 node (pending_count (queue_tasks [] ts) + 1)
        (queue_tasks [] ts) now).2.2 = true ∧
      pending_count (worker_loop run1 node (pending_count (queue_tasks [] ts) + 1)
        (queue_tasks [] ts) now).2.1 = 0) := by
  have hpair : claim_next_task st node now =
      ((claim_next_task st node now).1, (claim_next_task st node now).2) := rfl
  refine ⟨?_, ?_, ?_, ?_⟩
  · constructor
    · intro hhead
      cases hopt : (claim_next_task st node now).1 with
      | none =>
        by_cases hz : pending_count (claim_next_task st node now).2 = 0
        · exact ⟨Or.inl rfl, hz⟩
        · rw [worker_loop_step_sleep run1 node fuel st _ now (by rw [hpair, hopt]) hz] at hhead
          cases hhead
      | some task =>
        by_cases htn : task = PyVal.pyNone
        · subst htn
          by_cases hz : pending_count (claim_next_task st node now).2 = 0
          · exact ⟨Or.inr rfl, hz⟩
          · rw [worker_loop_step_sleep_none run1 node fuel st _ now
              (by rw [hpair, hopt]) hz] at hhead
            cases hhead
        · cases hrun : run1 task with
          | ok res =>
            rw [worker_loop_step_ok run1 node fuel st _ now task res
              (by rw [hpair, hopt]) hrun htn] at hhead
            cases hhead
          | error e =>
            rw [worker_loop_step_err run1 node fuel st _ now task e
              (by rw [hpair, hopt]) hrun htn] at hhead
            cases hhead
    · rintro ⟨hopt | hopt, hz⟩
      · rw [worker_loop_step_halt run1 node fuel st _ now (by rw [hpair, hopt]) hz]
        rfl
      · rw [worker_loop_step_halt_none run1 node fuel st _ now (by rw [hpair, hopt]) hz]
        rfl
  · intro hopt hz
    exact worker_loop_step_sleep run1 node fuel st _ now (by rw [hpair, hopt]) hz
  · exact worker_loop_drains run1 node (pending_count st) st now (Nat.le_refl _) hnodup
  · exact worker_loop_drains run1 node (pending_count (queue_tasks [] ts))
      (queue_tasks [] ts) now (Nat.le_refl _) (queue_tasks_nodup ts [] (by simp))

/-- C7 witness: the identity user function draining the freshly enqueued
one-task list `[1]` from the empty store. -/
theorem C7_witness :
    ((([] : Store).map (fun r => r.task_id)).Nodup) ∧
    ((worker_loop (fun v => Except.ok v) "w" (pending_count (queue_tasks [] [PyVal.pyInt 1]) + 1)
        (queue_tasks [] [PyVal.pyInt 1]) 0).2.2 = true ∧
      pending_count (worker_loop (fun v => Except.ok v) "w"
        (pending_count (queue_tasks [] [PyVal.pyInt 1]) + 1)
        (queue_tasks [] [PyVal.pyInt 1]) 0).2.1 = 0) :=
  ⟨by simp,
   (C7_drain_termination (fun v => Except.ok v) "w" [] 0 0 [PyVal.pyInt 1] (by simp)).2.2.2⟩

/-- C2: a task failure never propagates out of the worker loop — for any
claimed task the source actually runs (its payload is not the value `None`,
which the `task is None` test diverts to the idle branch) the loop records
`finish_task(error=str(e))` and keeps claiming (conjuncts 1 and 2, with the
record marked `failed` whenever the claimed payload's hash still addresses
its row) — but for a task whose payload re-serializes differently (a mapping
with keys out of sorted order) the `finish_task` update addresses a hash no
row has: the worker still completes, yet the row stays `running` and is
never marked `failed` (conjunct 3, the code bug). -/
theorem C2_failure_isolation (run1 : PyVal → Except String PyVal) (node : String)
    (fuel : Nat) (st st1 : Store) (now : Nat) (task : PyVal) (e : String) (r : TaskRec) :
    (claim_next_task st node now = (some task, st1) → run1 task = .error e →
      task ≠ PyVal.pyNone →
      worker_loop run1 node (fuel + 1) st now =
        (WAct.ranErr task e ::
          (worker_loop run1 node fuel (finish_task st1 task (some e) none now) (now + 1)).1,
         (worker_loop run1 node fuel (finish_task st1 task (some e) none now) (now + 1)).2)) ∧
    (r ∈ st1 → r.task_id = hash_task task → e ≠ "" →
      (∃ q ∈ finish_task st1 task (some e) none now,
          q.task_id = hash_task task ∧ q.status = Status.failed ∧ q.error = some e) ∧
      (∀ q ∈ st1, q.task_id ≠ hash_task task → q ∈ finish_task st1 task (some e) none now)) ∧
    ((worker_loop (fun _ => Except.error "boom") "w"
        (pending_count (queue_tasks [] [PyVal.pyDict [("b", PyVal.pyInt 1), ("a", PyVal.pyInt 2)]]) + 1)
        (queue_tasks [] [PyVal.pyDict [("b", PyVal.pyInt 1), ("a", PyVal.pyInt 2)]]) 0).2.2 = true ∧
      ((worker_loop (fun _ => Except.error "boom") "w"
        (pending_count (queue_tasks [] [PyVal.pyDict [("b", PyVal.pyInt 1), ("a", PyVal.pyInt 2)]]) + 1)
        (queue_tasks [] [PyVal.pyDict [("b", PyVal.pyInt 1), ("a", PyVal.pyInt 2)]]) 0).2.1).map
          (fun q => q.status) = [Status.running]) := by
  refine ⟨fun hc hr ht => worker_loop_step_err run1 node fuel st st1 now task e hc hr ht,
    ?_, by decide⟩
  intro hr hid he
  constructor
  · refine ⟨_, mem_finish_task.mpr ⟨r, hr, rfl⟩, ?_⟩
    rw [finishUpd_hit hid]
    simp [truthyS, hid, he]
  · intro q hq hqid
    exact mem_finish_task.mpr ⟨q, hq, finishUpd_miss hqid⟩

/-- C2 witness: a concrete claimed task `5` failing with message `boom`: the
loop returns normally with the failure action recorded, and the task's row is
marked `failed` with the error stored. -/
theorem C2_witness :
    (worker_loop (fun _ => Except.error "boom") "w" 1 (queue_tasks [] [PyVal.pyInt 5]) 1 =
      (WAct.ranErr (PyVal.pyInt 5) "boom" ::
        (worker_loop (fun _ => Except.error "boom") "w" 0
          (finish_task ((queue_tasks [] [PyVal.pyInt 5]).map
            (setRunning "w" 1 (hash_task (PyVal.pyInt 5))))
            (PyVal.pyInt 5) (some "boom") none 1) 2).1,
       (worker_loop (fun _ => Except.error "boom") "w" 0
          (finish_task ((queue_tasks [] [PyVal.pyInt 5]).map
            (setRunning "w" 1 (hash_task (PyVal.pyInt 5))))
            (PyVal.pyInt 5) (some "boom") none 1) 2).2)) ∧
    (∃ q ∈ finish_task ((queue_tasks [] [PyVal.pyInt 5]).map
          (setRunning "w" 1 (hash_task (PyVal.pyInt 5))))
        (PyVal.pyInt 5) (some "boom") none 1,
        q.task_id = hash_task (PyVal.pyInt 5) ∧ q.status = Status.failed ∧
          q.error = some "boom") := by
  have h := C2_failure_isolation (fun _ => Except.error "boom") "w" 0
    (queue_tasks [] [PyVal.pyInt 5])
    ((queue_tasks [] [PyVal.pyInt 5]).map (setRunning "w" 1 (hash_task (PyVal.pyInt 5))))
    1 (PyVal.pyInt 5) "boom"
    (setRunning "w" 1 (hash_task (PyVal.pyInt 5))
      (newRec (hash_task (PyVal.pyInt 5)) (yaml_dump (PyVal.pyInt 5))))
  exact ⟨h.1 (by decide) rfl (by decide),
    (h.2.1 (by decide) (by decide) (by decide)).1⟩

/-! ## Insertion-sort lemmas -/

theorem insertSorted_perm (le : α → α → Bool) (x : α) (l : List α) :
    (insertSorted le x l).Perm (x :: l) := by
  induction l with
  | nil => exact List.Perm.refl _
  | cons y ys ih =>
    rw [insertSorted]
    by_cases h : le x y
    · rw [if_pos h]
    · rw [if_neg h]
      exact ((ih.cons y).trans (List.Perm.swap x y ys))

theorem insertionSort_perm (le : α → α → Bool) (l : List α) :
    (insertionSort le l).Perm l := by
  induction l with
  | nil => exact List.Perm.refl _
  | cons x xs ih =>
    rw [insertionSort]
    exact (insertSorted_perm le x (insertionSort le xs)).trans (ih.cons x)

theorem insertSorted_pairwise (le : α → α → Bool)
    (htot : ∀ a b, le a b = true ∨ le b a = true)
    (htrans : ∀ a b c, le a b = true → le b c = true → le a c = true)
    (x : α) (l : List α) (hl : l.Pairwise (fun a b => le a b = true)) :
    (insertSorted le x l).Pairwise (fun a b => le a b = true) := by
  induction l with
  | nil => simp [insertSorted]
  | cons y ys ih =>
    rw [List.pairwise_cons] at hl
    rw [insertSorted]
    by_cases h : le x y
    · rw [if_pos h]
      rw [List.pairwise_cons]
      constructor
      · intro b hb
        rcases List.mem_cons.mp hb with rfl | hb2
        · exact h
        · exact htrans x y b h (hl.1 b hb2)
      · exact List.pairwise_cons.mpr hl
    · rw [if_neg h]
      rw [List.pairwise_cons]
      have hyx : le y x = true := by
        rcases htot x y with h1 | h1
        · exact absurd h1 h
        · exact h1
      constructor
      · intro b hb
        have hperm := insertSorted_perm le x ys
        rcases List.mem_cons.mp ((hperm.mem_iff).mp hb) with rfl | hb2
        · exact hyx
        · exact hl.1 b hb2
      · exact ih hl.2

theorem insertionSort_pairwise (le : α → α → Bool)
    (htot : ∀ a b, le a b = true ∨ le b a = true)
    (htrans : ∀ a b c, le a b = true → le b c = true → le a c = true)
    (l : List α) :
    (insertionSort le l).Pairwise (fun a b => le a b = true) := by
  induction l with
  | nil => simp [insertionSort]
  | cons x xs ih =>
    rw [insertionSort]
    exact insertSorted_pairwise le htot htrans x (insertionSort le xs) ih

/-! ## The dumped document is never empty -/

/-- Nesting depth of head-position lists (a measure for the compact
sequence-in-sequence recursion). -/
def listDepth : PyVal → Nat
  | .pyList (x :: _) => listDepth x + 1
  | _ => 0

theorem yamlMapItem_ne_nil (i : Nat) (k : String) (v : PyVal) :
    yamlMapItem i k v ≠ [] := by
  unfold yamlMapItem
  match v with
  | .pyList (x :: xs) => simp
  | .pyDict (p :: ps) => simp
  | .pyNone | .pyBool _ | .pyInt _ | .pyStr _ | .pyList [] | .pyDict [] => simp

theorem yamlSeqItem_ne_nil : ∀ (n : Nat) (v : PyVal), listDepth v ≤ n →
    ∀ i, yamlSeqItem i v ≠ [] := by
  intro n
  induction n with
  | zero =>
    intro v hd i
    match v with
    | .pyList (x :: xs) => simp [listDepth] at hd
    | .pyDict (p :: ps) =>
      unfold yamlSeqItem yamlMapLines
      rcases p with ⟨k, w⟩
      cases hmi : yamlMapItem (i + 2) k w with
      | nil => exact absurd hmi (yamlMapItem_ne_nil (i + 2) k w)
      | cons l ls => simp [yamlCompact]
    | .pyNone | .pyBool _ | .pyInt _ | .pyStr _ | .pyList [] | .pyDict [] =>
      unfold yamlSeqItem; simp
  | succ n ih =>
    intro v hd i
    match v with
    | .pyList (x :: xs) =>
      unfold yamlSeqItem yamlSeqLines
      have hx : yamlSeqItem (i + 2) x ≠ [] := by
        apply ih x ?_ (i + 2)
        simp only [listDepth] at hd
        omega
      cases hsi : yamlSeqItem (i + 2) x with
      | nil => exact absurd hsi hx
      | cons l ls => simp [yamlCompact]
    | .pyDict (p :: ps) =>
      unfold yamlSeqItem yamlMapLines
      rcases p with ⟨k, w⟩
      cases hmi : yamlMapItem (i + 2) k w with
      | nil => exact absurd hmi (yamlMapItem_ne_nil (i + 2) k w)
      | cons l ls => simp [yamlCompact]
    | .pyNone | .pyBool _ | .pyInt _ | .pyStr _ | .pyList [] | .pyDict [] =>
      unfold yamlSeqItem; simp

theorem yamlDumpLines_ne_nil (v : PyVal) : yamlDumpLines v ≠ [] := by
  unfold yamlDumpLines
  match v with
  | .pyNone | .pyBool _ | .pyInt _ | .pyStr _ => simp
  | .pyList [] => simp
  | .pyDict [] => simp
  | .pyList (x :: xs) =>
    unfold yamlSeqLines
    cases hsi : yamlSeqItem 0 x with
    | nil => exact absurd hsi (yamlSeqItem_ne_nil (listDepth x) x (Nat.le_refl _) 0)
    | cons l ls => simp
  | .pyDict (p :: ps) =>
    unfold yamlMapLines
    rcases p with ⟨k, w⟩
    cases hmi : yamlMapItem 0 k w with
    | nil => exact absurd hmi (yamlMapItem_ne_nil 0 k w)
    | cons l ls => simp

theorem yaml_dump_ne_empty (v : PyVal) : yaml_dump v ≠ "" := by
  unfold yaml_dump
  cases hlines : yamlDumpLines (canonSort v) with
  | nil => exact absurd hlines (yamlDumpLines_ne_nil (canonSort v))
  | cons l ls =>
    intro h
    have : (((l :: ls).map (fun q => q.data ++ [nlc])).flatten) = [] := by
      have h2 := congrArg String.data h
      simp only at h2
      exact h2
    simp at this

/-! ## A full drain finishes every record (canonical payloads) -/

theorem status_done_or_failed (s : Status) (hp : s ≠ .pending) (hr : s ≠ .running) :
    s = .done ∨ s = .failed := by
  cases s
  · exact absurd rfl hp
  · exact absurd rfl hr
  · exact Or.inl rfl
  · exact Or.inr rfl

theorem pending_count_zero_no_pending (st : Store) (h : pending_count st = 0) :
    ∀ r ∈ st, r.status ≠ .pending := by
  intro r hr
  have hfilter : st.filter (fun q => q.status = .pending) = [] :=
    List.length_eq_zero.mp h
  intro hp
  have : r ∈ st.filter (fun q => q.status = .pending) :=
    List.mem_filter.mpr ⟨hr, by simpa using hp⟩
  rw [hfilter] at this
  cases this

theorem worker_loop_drain_statuses (run1 : PyVal → Except String PyVal) (node : String) :
    ∀ (n : Nat) (st : Store) (now : Nat),
      pending_count st ≤ n →
      (st.map (fun r => r.task_id)).Nodup →
      (∀ r ∈ st, r.status = .pending →
        ∃ v, yaml_safe_load r.task_info = some v ∧ hash_task v = r.task_id ∧
          v ≠ PyVal.pyNone) →
      (∀ r ∈ st, r.status ≠ .running) →
      (worker_loop run1 node (n + 1) st now).2.2 = true ∧
        (∀ r ∈ (worker_loop run1 node (n + 1) st now).2.1,
          r.status = .done ∨ r.status = .failed) ∧
        (worker_loop run1 node (n + 1) st now).2.1.length = st.length := by
  intro n
  induction n with
  | zero =>
    intro st now hle _ _ hnorun
    have h0 : pending_count st = 0 := Nat.le_zero.mp hle
    have hfind := (pending_count_eq_zero_iff st).mp h0
    rw [worker_loop_step_stop run1 node 0 st now hfind h0]
    exact ⟨rfl, fun r hr => status_done_or_failed r.status
      (pending_count_zero_no_pending st h0 r hr) (hnorun r hr), rfl⟩
  | succ n ih =>
    intro st now hle hnodup hpayload hnorun
    cases hfind : st.find? (fun r => r.status = .pending) with
    | none =>
      have h0 : pending_count st = 0 := (pending_count_eq_zero_iff st).mpr hfind
      rw [worker_loop_step_stop run1 node (n + 1) st now hfind h0]
      exact ⟨rfl, fun r hr => status_done_or_failed r.status
        (pending_count_zero_no_pending st h0 r hr) (hnorun r hr), rfl⟩
    | some r =>
      have hrmem := List.mem_of_find?_eq_some hfind
      have hrpend : r.status = .pending := by simpa using List.find?_some hfind
      have hclaim := claim_next_task_of_some st node now r hfind
      rcases hpayload r hrmem hrpend with ⟨v, hload, hhash, hvn⟩
      have hcount := pending_count_claim st node now r hnodup hfind
      -- the claimed store
      have hnodup1 : ((st.map (setRunning node now r.task_id)).map
          (fun q => q.task_id)).Nodup := by
        rw [ids_map_setRunning]; exact hnodup
      have hle1 : pending_count (st.map (setRunning node now r.task_id)) ≤ n := by omega
      rw [hload] at hclaim
      -- facts about the store after the finish call, for either outcome
      have hfin : ∀ (error : Option String) (result : Option PyVal),
          (∀ q ∈ finish_task (st.map (setRunning node now r.task_id)) v error result now,
            q.status = .pending →
              ∃ w, yaml_safe_load q.task_info = some w ∧ hash_task w = q.task_id ∧
                w ≠ PyVal.pyNone) ∧
          (∀ q ∈ finish_task (st.map (setRunning node now r.task_id)) v error result now,
            q.status ≠ .running) ∧
          pending_count (finish_task (st.map (setRunning node now r.task_id))
            v error result now) ≤ n ∧
          ((finish_task (st.map (setRunning node now r.task_id)) v error result now).map
            (fun q => q.task_id)).Nodup ∧
          (finish_task (st.map (setRunning node now r.task_id)) v error result now).length =
            st.length := by
        intro error result
        refine ⟨?_, ?_, ?_, ?_, ?_⟩
        · intro q hq hqp
          rcases mem_finish_task.mp hq with ⟨q1, hq1, hup⟩
          by_cases hc1 : q1.task_id = hash_task v
          · rw [← hup, finishUpd_hit hc1] at hqp
            simp at hqp
            split at hqp <;> cases hqp
          · rw [← hup, finishUpd_miss hc1] at hqp ⊢
            rcases List.mem_map.mp hq1 with ⟨q0, hq0, hup0⟩
            by_cases hc0 : q0.task_id = r.task_id
            · rw [← hup0] at hqp
              simp [setRunning, hc0] at hqp
            · rw [← hup0, setRunning_of_ne node now r.task_id q0 hc0] at hqp ⊢
              exact hpayload q0 hq0 hqp
        · intro q hq
          rcases mem_finish_task.mp hq with ⟨q1, hq1, hup⟩
          by_cases hc1 : q1.task_id = hash_task v
          · rw [← hup, finishUpd_hit hc1]
            intro hcontra
            simp at hcontra
            split at hcontra <;> cases hcontra
          · rw [← hup, finishUpd_miss hc1]
            rcases List.mem_map.mp hq1 with ⟨q0, hq0, hup0⟩
            by_cases hc0 : q0.task_id = r.task_id
            · exfalso
              apply hc1
              rw [← hup0]
              rw [setRunning_task_id, hc0, hhash]
            · rw [← hup0, setRunning_of_ne node now r.task_id q0 hc0]
              exact hnorun q0 hq0
        · exact le_trans (pending_count_finish_le _ v error result now) hle1
        · rw [ids_finish_task]; exact hnodup1
        · rw [finish_task, List.length_map, List.length_map]
      cases hrun : run1 v with
      | ok res =>
        rw [worker_loop_step_ok run1 node (n + 1) st _ now v res hclaim hrun hvn]
        rcases hfin none (some res) with ⟨h1, h2, h3, h4, h5⟩
        have hrec := ih _ (now + 1) h3 h4 h1 h2
        exact ⟨hrec.1, hrec.2.1, by rw [hrec.2.2, h5]⟩
      | error e =>
        rw [worker_loop_step_err run1 node (n + 1) st _ now v e hclaim hrun hvn]
        rcases hfin (some e) none with ⟨h1, h2, h3, h4, h5⟩
        have hrec := ih _ (now + 1) h3 h4 h1 h2
        exact ⟨hrec.1, hrec.2.1, by rw [hrec.2.2, h5]⟩

/-! ## Export lemmas -/

theorem length_filterMap_of_isSome {α β : Type} (f : α → Option β) :
    ∀ l : List α, (∀ x ∈ l, (f x).isSome) → (l.filterMap f).length = l.length := by
  intro l
  induction l with
  | nil => intro _; rfl
  | cons x xs ih =>
    intro h
    rw [List.filterMap_cons]
    cases hfx : f x with
    | none =>
      have := h x (List.mem_cons_self x xs)
      rw [hfx] at this
      cases this
    | some b =>
      rw [List.length_cons, ih (fun y hy => h y (List.mem_cons_of_mem x hy))]
      rfl

theorem completedRows_perm (st : Store) :
    (completedRows st).Perm (st.filter (fun r => r.status = .done ∨ r.status = .failed)) :=
  insertionSort_perm _ _

theorem completedRows_sorted (st : Store) :
    (completedRows st).Pairwise (fun a b => tsKey a.ts_end ≤ tsKey b.ts_end) := by
  have h := insertionSort_pairwise
    (fun (a : TaskRec) (b : TaskRec) => decide (tsKey a.ts_end ≤ tsKey b.ts_end))
    (fun a b => by
      by_cases h : tsKey a.ts_end ≤ tsKey b.ts_end
      · exact Or.inl (by simpa using h)
      · exact Or.inr (by simp; omega))
    (fun a b c hab hbc => by
      simp only [decide_eq_true_eq] at hab hbc ⊢
      omega)
    (st.filter (fun r => r.status = .done ∨ r.status = .failed))
  exact h.imp (fun hab => by simpa using hab)

theorem rowEntry_isSome (r : TaskRec) (h : r.task_info ≠ "") : (rowEntry r).isSome := by
  unfold rowEntry
  by_cases ht : truthyS r.result_info
  · rw [if_pos ht]; rfl
  · rw [if_neg ht, if_pos h]; rfl

theorem dump_to_yaml_length (st : Store)
    (h : ∀ r ∈ st, (r.status = .done ∨ r.status = .failed) → r.task_info ≠ "") :
    (dump_to_yaml st).length =
      (st.filter (fun r => r.status = .done ∨ r.status = .failed)).length := by
  unfold dump_to_yaml
  rw [length_filterMap_of_isSome rowEntry _ ?_, (completedRows_perm st).length_eq]
  intro r hr
  have hr2 := (completedRows_perm st).mem_iff.mp hr
  have hr3 := List.mem_filter.mp hr2
  exact rowEntry_isSome r (h r hr3.1 (by simpa using hr3.2))

theorem claim_store_task_info (st : Store) (node : String) (now : Nat) (tid : String) :
    ∀ q ∈ st.map (setRunning node now tid), ∃ q0 ∈ st, q.task_info = q0.task_info := by
  intro q hq
  rcases List.mem_map.mp hq with ⟨q0, hq0, hup⟩
  refine ⟨q0, hq0, ?_⟩
  rw [← hup]
  unfold setRunning
  split <;> rfl

theorem finish_store_task_info (st : Store) (task : PyVal) (error : Option String)
    (result : Option PyVal) (now : Nat) :
    ∀ q ∈ finish_task st task error result now, ∃ q0 ∈ st, q.task_info = q0.task_info := by
  intro q hq
  rcases mem_finish_task.mp hq with ⟨q0, hq0, hup⟩
  refine ⟨q0, hq0, ?_⟩
  rw [← hup]
  unfold finishUpd
  split <;> rfl

theorem worker_loop_task_info (run1 : PyVal → Except String PyVal) (node : String) :
    ∀ (fuel : Nat) (st : Store) (now : Nat),
      ∀ q ∈ (worker_loop run1 node fuel st now).2.1, ∃ q0 ∈ st, q.task_info = q0.task_info := by
  intro fuel
  induction fuel with
  | zero => exact fun st now q hq => ⟨q, hq, rfl⟩
  | succ fuel ih =>
    intro st now q hq
    cases hfind : st.find? (fun r => r.status = .pending) with
    | none =>
      by_cases hz : pending_count st = 0
      · rw [worker_loop_step_stop run1 node fuel st now hfind hz] at hq
        exact ⟨q, hq, rfl⟩
      · rw [worker_loop_step_sleep run1 node fuel st st now
          (claim_next_task_of_none st node now hfind) hz] at hq
        exact ih st (now + 5) q hq
    | some r =>
      have hclaim := claim_next_task_of_some st node now r hfind
      cases hload : yaml_safe_load r.task_info with
      | none =>
        rw [hload] at hclaim
        by_cases hz : pending_count (st.map (setRunning node now r.task_id)) = 0
        · rw [worker_loop_step_halt run1 node fuel st _ now hclaim hz] at hq
          exact claim_store_task_info st node now r.task_id q hq
        · rw [worker_loop_step_sleep run1 node fuel st _ now hclaim hz] at hq
          rcases ih _ (now + 5) q hq with ⟨q1, hq1, he1⟩
          rcases claim_store_task_info st node now r.task_id q1 hq1 with ⟨q0, hq0, he0⟩
          exact ⟨q0, hq0, he1.trans he0⟩
      | some task =>
        rw [hload] at hclaim
        by_cases htn : task = PyVal.pyNone
        · subst htn
          by_cases hz : pending_count (st.map (setRunning node now r.task_id)) = 0
          · rw [worker_loop_step_halt_none run1 node fuel st _ now hclaim hz] at hq
            exact claim_store_task_info st node now r.task_id q hq
          · rw [worker_loop_step_sleep_none run1 node fuel st _ now hclaim hz] at hq
            rcases ih _ (now + 5) q hq with ⟨q1, hq1, he1⟩
            rcases claim_store_task_info st node now r.task_id q1 hq1 with ⟨q0, hq0, he0⟩
            exact ⟨q0, hq0, he1.trans he0⟩
        · cases hrun : run1 task with
          | ok res =>
            rw [worker_loop_step_ok run1 node fuel st _ now task res hclaim hrun htn] at hq
            rcases ih _ (now + 1) q hq with ⟨q2, hq2, he2⟩
            rcases finish_store_task_info _ task none (some res) now q2 hq2 with ⟨q1, hq1, he1⟩
            rcases claim_store_task_info st node now r.task_id q1 hq1 with ⟨q0, hq0, he0⟩
            exact ⟨q0, hq0, (he2.trans he1).trans he0⟩
          | error e =>
            rw [worker_loop_step_err run1 node fuel st _ now task e hclaim hrun htn] at hq
            rcases ih _ (now + 1) q hq with ⟨q2, hq2, he2⟩
            rcases finish_store_task_info _ task (some e) none now q2 hq2 with ⟨q1, hq1, he1⟩
            rcases claim_store_task_info st node now r.task_id q1 hq1 with ⟨q0, hq0, he0⟩
            exact ⟨q0, hq0, (he2.trans he1).trans he0⟩

theorem queue_tasks_length_of_nodup_hashes : ∀ (ts : List PyVal) (st : Store),
    (ts.map hash_task).Nodup →
    (∀ t ∈ ts, hasId st (hash_task t) = false) →
    (queue_tasks st ts).length = st.length + ts.length := by
  intro ts
  induction ts with
  | nil => intro st _ _; simp [queue_tasks_nil]
  | cons t ts ih =>
    intro st hnodup hfresh
    rw [List.map_cons, List.nodup_cons] at hnodup
    have hins : insertTask st t = st ++ [newRec (hash_task t) (yaml_dump t)] := by
      rw [insertTask, if_neg]
      rw [hfresh t (List.mem_cons_self t ts)]
      exact Bool.false_ne_true
    rw [queue_tasks_cons, ih (insertTask st t) hnodup.2 ?_]
    · rw [hins]
      simp
      omega
    · intro u hu
      rw [hins, hasId_append, Bool.or_eq_false_iff]
      refine ⟨hfresh u (List.mem_cons_of_mem t hu), ?_⟩
      simp only [hasId, newRec, List.any_cons, List.any_nil, Bool.or_false]
      simp only [decide_eq_false_iff_not]
      intro he
      exact hnodup.1 (he ▸ List.mem_map_of_mem hash_task hu)

/-- C5 counterexample: a task list of size 2 with duplicated content `[1, 1]`
drains to a single record, so the export holds 1 entry, not 2. -/
theorem C5_counterexample :
    ([PyVal.pyInt 1, PyVal.pyInt 1].length = 2) ∧
    (worker_loop (fun v => Except.ok v) "w"
        (pending_count (queue_tasks [] [PyVal.pyInt 1, PyVal.pyInt 1]) + 1)
        (queue_tasks [] [PyVal.pyInt 1, PyVal.pyInt 1]) 0).2.2 = true ∧
    (dump_to_yaml (worker_loop (fun v => Except.ok v) "w"
        (pending_count (queue_tasks [] [PyVal.pyInt 1, PyVal.pyInt 1]) + 1)
        (queue_tasks [] [PyVal.pyInt 1, PyVal.pyInt 1]) 0).2.1).length = 1 :=
  ⟨rfl, by decide, by decide⟩

/-- C5 (amended): the export selects exactly the `done`/`failed` rows, ordered
by completion time, emitting one entry per row — the deserialized result when
one was recorded, else the original payload; the write goes to a temporary
file and is installed by one rename, so a concurrent reader of the
destination sees the old contents or the complete new data, never a partial
file; a drain of a list of N distinct (canonically serialized) tasks none of
which is the value `None` exports exactly N entries; and the task `None` is
the second exception to the N-entry count (besides duplicates): its claimed
payload trips the worker's `task is None` claim-miss test, so its row is left
`running` and exports nothing (last conjunct). -/
theorem C5_export_completed (st : Store) (data : List PyVal) (fs0 : FileState)
    (ts : List PyVal) (node : String) (now : Nat) (run1 : PyVal → Except String PyVal) :
    (completedRows st).Perm (st.filter (fun r => r.status = .done ∨ r.status = .failed)) ∧
    (completedRows st).Pairwise (fun a b => tsKey a.ts_end ≤ tsKey b.ts_end) ∧
    ((∀ r ∈ st, (r.status = .done ∨ r.status = .failed) → r.task_info ≠ "") →
      (dump_to_yaml st).length =
        (st.filter (fun r => r.status = .done ∨ r.status = .failed)).length) ∧
    (∀ r ∈ completedRows st,
      (truthyS r.result_info = true →
        rowEntry r = some ((yaml_safe_load (r.result_info.getD "")).getD .pyNone)) ∧
      (truthyS r.result_info = false → r.task_info ≠ "" →
        rowEntry r = some ((yaml_safe_load r.task_info).getD .pyNone))) ∧
    (∀ fs1 ∈ atomic_write_yaml data fs0, fs1.main = fs0.main ∨ fs1.main = some data) ∧
    ((atomic_write_yaml data fs0).getLast? = some ⟨some data, none⟩) ∧
    ((∀ t ∈ ts, yaml_safe_load (yaml_dump t) = some t) →
      (∀ t ∈ ts, t ≠ PyVal.pyNone) →
      (ts.map hash_task).Nodup →
      (dump_to_yaml (worker_loop run1 node (pending_count (queue_tasks [] ts) + 1)
        (queue_tasks [] ts) now).2.1).length = ts.length) ∧
    ((worker_loop run1 node (pending_count (queue_tasks [] [PyVal.pyNone]) + 1)
        (queue_tasks [] [PyVal.pyNone]) now).2.1.map (fun r => r.status) =
      [Status.running] ∧
      (dump_to_yaml (worker_loop run1 node
        (pending_count (queue_tasks [] [PyVal.pyNone]) + 1)
        (queue_tasks [] [PyVal.pyNone]) now).2.1).length = 0) := by
  refine ⟨completedRows_perm st, completedRows_sorted st, dump_to_yaml_length st,
    ?_, ?_, ?_, ?_, rfl, rfl⟩
  · intro r _
    constructor
    · intro ht
      unfold rowEntry
      rw [if_pos ht]
    · intro ht hinfo
      unfold rowEntry
      rw [if_neg (by rw [ht]; exact Bool.false_ne_true), if_pos hinfo]
  · intro fs1 h
    unfold atomic_write_yaml at h
    rcases List.mem_cons.mp h with rfl | h2
    · exact Or.inl rfl
    · rcases List.mem_append.mp h2 with h3 | h3
      · rcases List.mem_map.mp h3 with ⟨i, _, hup⟩
        rw [← hup]
        exact Or.inl rfl
      · rw [List.mem_singleton.mp h3]
        exact Or.inr rfl
  · unfold atomic_write_yaml
    exact List.getLast?_concat _
  · intro hgood hnone hnodup
    have hqnodup := queue_tasks_nodup ts [] (by simp)
    have hqlen : (queue_tasks [] ts).length = ts.length := by
      have := queue_tasks_length_of_nodup_hashes ts [] hnodup (fun t _ => rfl)
      simpa using this
    have hpayload : ∀ r ∈ queue_tasks [] ts, r.status = .pending →
        ∃ v, yaml_safe_load r.task_info = some v ∧ hash_task v = r.task_id ∧
          v ≠ PyVal.pyNone := by
      intro r hr _
      rcases mem_queue_tasks_cases ts [] r hr with h1 | ⟨t, ht, rfl⟩
      · cases h1
      · exact ⟨t, by rw [newRec]; exact hgood t ht, rfl, hnone t ht⟩
    have hnorun : ∀ r ∈ queue_tasks [] ts, r.status ≠ .running := by
      intro r hr
      rcases mem_queue_tasks_cases ts [] r hr with h1 | ⟨t, ht, rfl⟩
      · cases h1
      · rw [newRec]
        intro h
        cases h
    have hdrain := worker_loop_drain_statuses run1 node (pending_count (queue_tasks [] ts))
      (queue_tasks [] ts) now (Nat.le_refl _) hqnodup hpayload hnorun
    have hinfo : ∀ r ∈ (worker_loop run1 node (pending_count (queue_tasks [] ts) + 1)
        (queue_tasks [] ts) now).2.1,
        (r.status = .done ∨ r.status = .failed) → r.task_info ≠ "" := by
      intro r hr _
      rcases worker_loop_task_info run1 node _ _ _ r hr with ⟨q0, hq0, he⟩
      rcases mem_queue_tasks_cases ts [] q0 hq0 with h1 | ⟨t, ht, rfl⟩
      · cases h1
      · rw [he, newRec]
        exact yaml_dump_ne_empty t
    rw [dump_to_yaml_length _ hinfo]
    have hall : ((worker_loop run1 node (pending_count (queue_tasks [] ts) + 1)
        (queue_tasks [] ts) now).2.1).filter
          (fun r => r.status = .done ∨ r.status = .failed) =
        (worker_loop run1 node (pending_count (queue_tasks [] ts) + 1)
          (queue_tasks [] ts) now).2.1 := by
      rw [List.filter_eq_self]
      intro r hr
      simpa using hdrain.2.1 r hr
    rw [hall, hdrain.2.2, hqlen]

/-- C5 witness: the export-count equality on a concrete two-row store (one
`done`, one `failed`), and the drain of the two distinct tasks `[1, 2]`
exporting exactly two entries. -/
theorem C5_witness :
    ((dump_to_yaml
        [{ task_id := "a", task_info := "x", result_info := some "1\n...\n",
           status := Status.done, node := none, error := none, ts_start := some 1,
           ts_end := some 2 },
         { task_id := "b", task_info := "y", result_info := none,
           status := Status.failed, node := none, error := some "boom", ts_start := some 1,
           ts_end := some 3 }]).length =
      (([{ task_id := "a", task_info := "x", result_info := some "1\n...\n",
           status := Status.done, node := none, error := none, ts_start := some 1,
           ts_end := some 2 },
         { task_id := "b", task_info := "y", result_info := none,
           status := Status.failed, node := none, error := some "boom", ts_start := some 1,
           ts_end := some 3 }] : Store).filter
        (fun r => r.status = .done ∨ r.status = .failed)).length) ∧
    (dump_to_yaml (worker_loop (fun v => Except.ok v) "w"
        (pending_count (queue_tasks [] [PyVal.pyInt 1, PyVal.pyInt 2]) + 1)
        (queue_tasks [] [PyVal.pyInt 1, PyVal.pyInt 2]) 0).2.1).length =
      [PyVal.pyInt 1, PyVal.pyInt 2].length := by
  have h := C5_export_completed
    [{ task_id := "a", task_info := "x", result_info := some "1\n...\n",
       status := Status.done, node := none, error := none, ts_start := some 1,
       ts_end := some 2 },
     { task_id := "b", task_info := "y", result_info := none,
       status := Status.failed, node := none, error := some "boom", ts_start := some 1,
       ts_end := some 3 }]
    [PyVal.pyInt 1] ⟨none, none⟩ [PyVal.pyInt 1, PyVal.pyInt 2] "w" 0
    (fun v => Except.ok v)
  exact ⟨h.2.2.1 (by decide), h.2.2.2.2.2.2.1 (by decide) (by decide) (by decide)⟩

/-! ## Executor lemmas -/

theorem worker_loop_ids (run1 : PyVal → Except String PyVal) (node : String) :
    ∀ (fuel : Nat) (st : Store) (now : Nat),
      (worker_loop run1 node fuel st now).2.1.map (fun r => r.task_id) =
        st.map (fun r => r.task_id) := by
  intro fuel
  induction fuel with
  | zero => intro st now; rfl
  | succ fuel ih =>
    intro st now
    cases hfind : st.find? (fun r => r.status = .pending) with
    | none =>
      by_cases hz : pending_count st = 0
      · rw [worker_loop_step_stop run1 node fuel st now hfind hz]
      · rw [worker_loop_step_sleep run1 node fuel st st now
          (claim_next_task_of_none st node now hfind) hz]
        exact ih st (now + 5)
    | some r =>
      have hclaim := claim_next_task_of_some st node now r hfind
      cases hload : yaml_safe_load r.task_info with
      | none =>
        rw [hload] at hclaim
        by_cases hz : pending_count (st.map (setRunning node now r.task_id)) = 0
        · rw [worker_loop_step_halt run1 node fuel st _ now hclaim hz]
          exact ids_map_setRunning st node now r.task_id
        · rw [worker_loop_step_sleep run1 node fuel st _ now hclaim hz]
          rw [ih _ (now + 5), ids_map_setRunning]
      | some task =>
        rw [hload] at hclaim
        by_cases htn : task = PyVal.pyNone
        · subst htn
          by_cases hz : pending_count (st.map (setRunning node now r.task_id)) = 0
          · rw [worker_loop_step_halt_none run1 node fuel st _ now hclaim hz]
            exact ids_map_setRunning st node now r.task_id
          · rw [worker_loop_step_sleep_none run1 node fuel st _ now hclaim hz]
            rw [ih _ (now + 5), ids_map_setRunning]
        · cases hrun : run1 task with
          | ok res =>
            rw [worker_loop_step_ok run1 node fuel st _ now task res hclaim hrun htn]
            rw [ih _ (now + 1), ids_finish_task, ids_map_setRunning]
          | error e =>
            rw [worker_loop_step_err run1 node fuel st _ now task e hclaim hrun htn]
            rw [ih _ (now + 1), ids_finish_task, ids_map_setRunning]

theorem drain_export_length (ts : List PyVal) (node : String) (now : Nat)
    (run1 : PyVal → Except String PyVal)
    (hgood : ∀ t ∈ ts, yaml_safe_load (yaml_dump t) = some t)
    (hnone : ∀ t ∈ ts, t ≠ PyVal.pyNone)
    (hnodup : (ts.map hash_task).Nodup) :
    (dump_to_yaml (worker_loop run1 node (pending_count (queue_tasks [] ts) + 1)
      (queue_tasks [] ts) now).2.1).length = ts.length := by
  have hqnodup := queue_tasks_nodup ts [] (by simp)
  have hqlen : (queue_tasks [] ts).length = ts.length := by
    have := queue_tasks_length_of_nodup_hashes ts [] hnodup (fun t _ => rfl)
    simpa using this
  have hpayload : ∀ r ∈ queue_tasks [] ts, r.status = .pending →
      ∃ v, yaml_safe_load r.task_info = some v ∧ hash_task v = r.task_id ∧
        v ≠ PyVal.pyNone := by
    intro r hr _
    rcases mem_queue_tasks_cases ts [] r hr with h1 | ⟨t, ht, rfl⟩
    · cases h1
    · exact ⟨t, by rw [newRec]; exact hgood t ht, rfl, hnone t ht⟩
  have hnorun : ∀ r ∈ queue_tasks [] ts, r.status ≠ .running := by
    intro r hr
    rcases mem_queue_tasks_cases ts [] r hr with h1 | ⟨t, ht, rfl⟩
    · cases h1
    · rw [newRec]
      intro h
      cases h
  have hdrain := worker_loop_drain_statuses run1 node (pending_count (queue_tasks [] ts))
    (queue_tasks [] ts) now (Nat.le_refl _) hqnodup hpayload hnorun
  have hinfo : ∀ r ∈ (worker_loop run1 node (pending_count (queue_tasks [] ts) + 1)
      (queue_tasks [] ts) now).2.1,
      (r.status = .done ∨ r.status = .failed) → r.task_info ≠ "" := by
    intro r hr _
    rcases worker_loop_task_info run1 node _ _ _ r hr with ⟨q0, hq0, he⟩
    rcases mem_queue_tasks_cases ts [] q0 hq0 with h1 | ⟨t, ht, rfl⟩
    · cases h1
    · rw [he, newRec]
      exact yaml_dump_ne_empty t
  rw [dump_to_yaml_length _ hinfo]
  have hall : ((worker_loop run1 node (pending_count (queue_tasks [] ts) + 1)
      (queue_tasks [] ts) now).2.1).filter
        (fun r => r.status = .done ∨ r.status = .failed) =
      (worker_loop run1 node (pending_count (queue_tasks [] ts) + 1)
        (queue_tasks [] ts) now).2.1 := by
    rw [List.filter_eq_self]
    intro r hr
    simpa using hdrain.2.1 r hr
  rw [hall, hdrain.2.2, hqlen]

/-- C8: the Executor exports the completed rows in every path — immediately
with zero workers when nothing is pending after seeding, after the launch
when it returns, and even when the worker-launch step raises; and a second
run against the same store after a fully completed drain of the same task
list (distinct canonically-serialized tasks, none of them the value `None` —
a `None` task is never executed by the worker, so a run over it never fully
completes) launches zero workers and still exports a file with all N
entries. -/
theorem C8_executor_always_exports (w : Nat) (launch : Store → Except String Store)
    (tasks ts : List PyVal) (st0 : Store) (node : String) (now : Nat)
    (run1 : PyVal → Except String PyVal) :
    (pending_count (queue_tasks st0 tasks) = 0 →
      executor_run w launch tasks st0 =
        (Except.ok (), 0, queue_tasks st0 tasks, dump_to_yaml (queue_tasks st0 tasks))) ∧
    (∀ e, pending_count (queue_tasks st0 tasks) ≠ 0 →
      launch (queue_tasks st0 tasks) = .error e →
      executor_run w launch tasks st0 =
        (Except.error e, w, queue_tasks st0 tasks, dump_to_yaml (queue_tasks st0 tasks))) ∧
    (∀ st2, pending_count (queue_tasks st0 tasks) ≠ 0 →
      launch (queue_tasks st0 tasks) = .ok st2 →
      executor_run w launch tasks st0 = (Except.ok (), w, st2, dump_to_yaml st2)) ∧
    ((∀ t ∈ ts, yaml_safe_load (yaml_dump t) = some t) →
      (∀ t ∈ ts, t ≠ PyVal.pyNone) → (ts.map hash_task).Nodup →
      executor_run w launch ts
          (worker_loop run1 node (pending_count (queue_tasks [] ts) + 1)
            (queue_tasks [] ts) now).2.1 =
        (Except.ok (), 0,
          (worker_loop run1 node (pending_count (queue_tasks [] ts) + 1)
            (queue_tasks [] ts) now).2.1,
          dump_to_yaml (worker_loop run1 node (pending_count (queue_tasks [] ts) + 1)
            (queue_tasks [] ts) now).2.1) ∧
      (dump_to_yaml (worker_loop run1 node (pending_count (queue_tasks [] ts) + 1)
        (queue_tasks [] ts) now).2.1).length = ts.length) := by
  refine ⟨?_, ?_, ?_, ?_⟩
  · intro h
    simp [executor_run, h]
  · intro e hnz herr
    simp [executor_run, hnz, herr]
  · intro st2 hnz hok
    simp [executor_run, hnz, hok]
  · intro hgood hnone hnodup
    have hqnodup := queue_tasks_nodup ts [] (by simp)
    have hdrained := worker_loop_drains run1 node (pending_count (queue_tasks [] ts))
      (queue_tasks [] ts) now (Nat.le_refl _) hqnodup
    have hfixed : queue_tasks (worker_loop run1 node (pending_count (queue_tasks [] ts) + 1)
        (queue_tasks [] ts) now).2.1 ts =
        (worker_loop run1 node (pending_count (queue_tasks [] ts) + 1)
          (queue_tasks [] ts) now).2.1 := by
      apply queue_tasks_fixed
      intro t ht
      rw [hasId_iff_mem_ids, worker_loop_ids, ← hasId_iff_mem_ids]
      exact hasId_queue_tasks_of_mem ts [] t ht
    constructor
    · simp [executor_run, hfixed, hdrained.2]
    · exact drain_export_length ts node now run1 hgood hnone hnodup

/-- C8 witness: an empty seed (pending zero, no workers, still exports) and a
second run over the drained one-task store `[4]` re-exporting its single
entry with zero workers. -/
theorem C8_witness :
    (pending_count (queue_tasks [] ([] : List PyVal)) = 0) ∧
    (executor_run 3 (fun st => Except.ok st) [] [] =
      (Except.ok (), 0, queue_tasks [] ([] : List PyVal),
        dump_to_yaml (queue_tasks [] ([] : List PyVal)))) ∧
    (executor_run 3 (fun st => Except.ok st) [PyVal.pyInt 4]
        (worker_loop (fun v => Except.ok v) "w"
          (pending_count (queue_tasks [] [PyVal.pyInt 4]) + 1)
          (queue_tasks [] [PyVal.pyInt 4]) 0).2.1 =
      (Except.ok (), 0,
        (worker_loop (fun v => Except.ok v) "w"
          (pending_count (queue_tasks [] [PyVal.pyInt 4]) + 1)
          (queue_tasks [] [PyVal.pyInt 4]) 0).2.1,
        dump_to_yaml (worker_loop (fun v => Except.ok v) "w"
          (pending_count (queue_tasks [] [PyVal.pyInt 4]) + 1)
          (queue_tasks [] [PyVal.pyInt 4]) 0).2.1)) ∧
    (dump_to_yaml (worker_loop (fun v => Except.ok v) "w"
      (pending_count (queue_tasks [] [PyVal.pyInt 4]) + 1)
      (queue_tasks [] [PyVal.pyInt 4]) 0).2.1).length = 1 := by
  have h := C8_executor_always_exports 3 (fun st => Except.ok st) [] [PyVal.pyInt 4] []
    "w" 0 (fun v => Except.ok v)
  have hd := h.2.2.2 (by decide) (by decide) (by decide)
  exact ⟨rfl, h.1 rfl, hd.1, hd.2⟩

/-! ## Character and digit lemmas -/

theorem toNat_ofNat_valid (n : Nat) (h : n < 55296) : (Char.ofNat n).toNat = n := by
  have hv : Nat.isValidChar n := Or.inl h
  simp [Char.ofNat, Char.ofNatAux, Char.toNat, hv, UInt32.toNat, BitVec.toNat_ofNat]

theorem digitChar_toNat (d : Nat) (h : d < 10) : (digitChar d).toNat = 48 + d := by
  unfold digitChar
  exact toNat_ofNat_valid (48 + d) (by omega)

theorem sqc_toNat : sqc.toNat = 39 := by decide

theorem nlc_toNat : nlc.toNat = 10 := by decide

theorem splitNl_append (l rest : List Char) (h : nlc ∉ l) :
    splitNl (l ++ nlc :: rest) = l :: splitNl rest := by
  induction l with
  | nil => simp [splitNl]
  | cons c cs ih =>
    have hc : ¬ c = nlc := fun he => h (he ▸ List.mem_cons_self c cs)
    rw [List.cons_append, splitNl, if_neg hc, ih (fun hm => h (List.mem_cons_of_mem c hm))]

theorem splitNl_doc (lines : List String) (h : ∀ l ∈ lines, nlc ∉ l.data) :
    splitNl ((lines.map (fun l => l.data ++ [nlc])).flatten) =
      lines.map (fun l => l.data) ++ [[]] := by
  induction lines with
  | nil => rfl
  | cons l ls ih =>
    rw [List.map_cons, List.flatten_cons, List.append_assoc, List.singleton_append,
      splitNl_append _ _ (h l (List.mem_cons_self l ls)),
      ih (fun x hx => h x (List.mem_cons_of_mem l hx)), List.map_cons, List.cons_append]

theorem parseDoc_append_empty (ls : List (List Char)) :
    parseDoc (ls ++ [[]]) = parseDoc ls := by
  unfold parseDoc
  rw [List.filter_append]
  simp

theorem yaml_safe_load_eq_parseDoc (v : PyVal)
    (h : ∀ l ∈ yamlDumpLines (canonSort v), nlc ∉ l.data) :
    yaml_safe_load (yaml_dump v) =
      parseDoc ((yamlDumpLines (canonSort v)).map (fun l => l.data)) := by
  unfold yaml_safe_load yaml_dump
  show parseDoc (splitNl (((yamlDumpLines (canonSort v)).map
    (fun l => l.data ++ [nlc])).flatten)) = _
  rw [splitNl_doc _ h, parseDoc_append_empty]

/-- Value of a least-significant-first digit list (an analysis helper). -/
def digitsVal : List Char → Nat
  | [] => 0
  | c :: cs => (c.toNat - 48) + 10 * digitsVal cs

theorem natDigitsAux_val : ∀ (fuel n : Nat), n ≤ fuel →
    digitsVal (natDigitsAux fuel n) = n := by
  intro fuel
  induction fuel with
  | zero => intro n h; interval_cases n; rfl
  | succ fuel ih =>
    intro n h
    match n with
    | 0 => rfl
    | m + 1 =>
      rw [natDigitsAux, digitsVal, digitChar_toNat _ (Nat.mod_lt _ (by omega)),
        ih ((m + 1) / 10) (by omega)]
      omega

theorem natDigitsAux_digits : ∀ (fuel n : Nat), ∀ c ∈ natDigitsAux fuel n,
    isDigitC c = true := by
  intro fuel
  induction fuel with
  | zero => intro n c hc; cases hc
  | succ fuel ih =>
    intro n c hc
    match n with
    | 0 => cases hc
    | m + 1 =>
      rw [natDigitsAux] at hc
      rcases List.mem_cons.mp hc with rfl | hc2
      · have := digitChar_toNat ((m + 1) % 10) (Nat.mod_lt _ (by omega))
        simp [isDigitC, this]
        omega
      · exact ih _ c hc2

theorem natDigitsAux_ne_nil (fuel m : Nat) : natDigitsAux (fuel + 1) (m + 1) ≠ [] := by
  rw [natDigitsAux]
  simp

theorem foldr_digits_eq (cs : List Char) :
    cs.foldr (fun c acc => acc * 10 + (c.toNat - 48)) 0 = digitsVal cs := by
  induction cs with
  | nil => rfl
  | cons c cs ih =>
    rw [List.foldr_cons, ih, digitsVal]
    omega

theorem parseNatDigits_natRepr (n : Nat) : parseNatDigits (natRepr n).data = some n := by
  match n with
  | 0 => decide
  | m + 1 =>
    unfold natRepr
    rw [if_neg (by omega)]
    show parseNatDigits (natDigitsAux (m + 1) (m + 1)).reverse = some (m + 1)
    unfold parseNatDigits
    rw [if_neg (by simp [natDigitsAux_ne_nil m m]), if_pos ?hd]
    case hd =>
      rw [List.all_eq_true]
      intro c hc
      exact natDigitsAux_digits (m + 1) (m + 1) c (List.mem_reverse.mp hc)
    rw [List.foldl_reverse]
    have : (natDigitsAux (m + 1) (m + 1)).foldr (fun x y => y * 10 + (x.toNat - 48)) 0 =
        digitsVal (natDigitsAux (m + 1) (m + 1)) := foldr_digits_eq _
    rw [this, natDigitsAux_val (m + 1) (m + 1) (Nat.le_refl _)]

theorem isDigitC_ne_minus (c : Char) (h : isDigitC c = true) : ¬ c = '-' := by
  intro he
  subst he
  simp [isDigitC] at h

theorem isDigitC_ne_plus (c : Char) (h : isDigitC c = true) : ¬ c = '+' := by
  intro he
  subst he
  simp [isDigitC] at h

theorem parseIntLit_intRepr (n : Int) : parseIntLit (intRepr n).data = some n := by
  match n with
  | Int.ofNat m =>
    have hrepr := parseNatDigits_natRepr m
    unfold intRepr
    match hd : (natRepr m).data with
    | [] =>
      rw [hd] at hrepr
      unfold parseNatDigits at hrepr
      simp at hrepr
    | c :: cs =>
      rw [hd] at hrepr
      have hdig : isDigitC c = true := by
        unfold parseNatDigits at hrepr
        by_cases hall : (c :: cs).all isDigitC
        · exact (List.all_eq_true.mp hall) c (List.mem_cons_self c cs)
        · rw [if_neg (by simp), if_neg hall] at hrepr
          cases hrepr
      simp only [parseIntLit]
      rw [if_neg (isDigitC_ne_minus c hdig), if_neg (isDigitC_ne_plus c hdig), hrepr]
      rfl
  | Int.negSucc m =>
    show parseIntLit (("-" : String).data ++ (natRepr (m + 1)).data) = some (Int.negSucc m)
    rw [show ("-" : String).data = ['-'] from rfl, List.singleton_append]
    simp only [parseIntLit, if_true]
    rw [parseNatDigits_natRepr (m + 1)]
    simp [Int.negSucc_eq]

theorem sqScan_inv : ∀ (s rest : List Char), rest.head? ≠ some sqc →
    sqScan (sqEsc s ++ sqc :: rest) = some (s, rest) := by
  intro s
  induction s with
  | nil =>
    intro rest h
    rw [sqEsc, List.nil_append]
    cases rest with
    | nil => rfl
    | cons d ds =>
      have hd : ¬ d = sqc := fun he => h (by rw [he]; rfl)
      simp [sqScan, hd]
  | cons c cs ih =>
    intro rest h
    by_cases hc : c = sqc
    · subst hc
      rw [sqEsc, if_pos rfl]
      show sqScan (sqc :: sqc :: (sqEsc cs ++ sqc :: rest)) = _
      simp [sqScan, ih rest h]
    · rw [sqEsc, if_neg hc, List.cons_append]
      have hih := ih rest h
      cases he : sqEsc cs ++ sqc :: rest with
      | nil => simp at he
      | cons e es =>
        rw [he] at hih
        simp [sqScan, hc, hih]

theorem splitColonSp_none : ∀ (cs : List Char), ':' ∉ cs → splitColonSp cs = none := by
  intro cs
  induction cs with
  | nil => intro _; rfl
  | cons c cs ih =>
    intro h
    have hc : ¬ c = ':' := fun he => h (he ▸ List.mem_cons_self c cs)
    cases cs with
    | nil =>
      rw [splitColonSp, if_neg hc]
    | cons d rest =>
      rw [splitColonSp, if_neg (fun hp => hc hp.1),
        ih (fun hm => h (List.mem_cons_of_mem c hm))]

theorem splitColonSp_append : ∀ (k v : List Char), ':' ∉ k →
    splitColonSp (k ++ ':' :: ' ' :: v) = some (k, v) := by
  intro k
  induction k with
  | nil =>
    intro v _
    rw [List.nil_append, splitColonSp, if_pos ⟨rfl, rfl⟩]
  | cons c ks ih =>
    intro v h
    have hc : ¬ c = ':' := fun he => h (he ▸ List.mem_cons_self c ks)
    rw [List.cons_append]
    cases hk : ks ++ ':' :: ' ' :: v with
    | nil => simp at hk
    | cons d rest =>
      rw [splitColonSp, if_neg (fun hp => hc hp.1), ← hk,
        ih v (fun hm => h (List.mem_cons_of_mem c hm))]

theorem reserved_mem_head (s : String) (h : yamlReserved.contains s = true) :
    ∃ c cs, s.data = c :: cs ∧ (asciiAlpha c = true ∨ c = Char.ofNat 126) := by
  have hmem : s ∈ yamlReserved := by simpa using h
  simp only [yamlReserved, nullWords, trueWords, falseWords, List.append_assoc,
    List.mem_append, List.mem_cons, List.not_mem_nil, or_false] at hmem
  rcases hmem with (rfl|rfl|rfl|rfl)|(rfl|rfl|rfl|rfl|rfl|rfl|rfl|rfl|rfl)|
    (rfl|rfl|rfl|rfl|rfl|rfl|rfl|rfl|rfl) <;>
    exact ⟨_, _, rfl, by decide⟩

theorem char_eq_of_toNat (a b : Char) (h : a.toNat = b.toNat) : a = b :=
  Char.ofNat_toNat a ▸ Char.ofNat_toNat b ▸ congrArg Char.ofNat h

theorem char_eq_iff_toNat (a b : Char) : a = b ↔ a.toNat = b.toNat :=
  ⟨fun h => h ▸ rfl, char_eq_of_toNat a b⟩

theorem plainFirst_props (c : Char) (h : plainFirst c = true) :
    isDigitC c = false ∧ c ≠ '-' ∧ c ≠ '+' ∧ c ≠ ' ' ∧ c ≠ sqc ∧ c ≠ dqc ∧
      c ≠ '[' ∧ c ≠ obc ∧ c ≠ ':' ∧ c ≠ '.' := by
  have h2 : ((65 ≤ c.toNat ∧ c.toNat ≤ 90 ∨ 97 ≤ c.toNat ∧ c.toNat ≤ 122) ∨
      c.toNat = 95) ∨ c.toNat = 47 := by
    simpa only [plainFirst, asciiAlpha, Bool.or_eq_true, Bool.and_eq_true,
      decide_eq_true_eq, char_eq_iff_toNat, show ('_').toNat = 95 from rfl,
      show ('/').toNat = 47 from rfl] using h
  refine ⟨?_, ?_, ?_, ?_, ?_, ?_, ?_, ?_, ?_, ?_⟩
  · simp only [isDigitC, Bool.and_eq_false_iff, decide_eq_false_iff_not]
    omega
  all_goals
    simp only [ne_eq, char_eq_iff_toNat, show ('-').toNat = 45 from rfl,
      show ('+').toNat = 43 from rfl, show (' ').toNat = 32 from rfl,
      show sqc.toNat = 39 from rfl, show dqc.toNat = 34 from rfl,
      show ('[').toNat = 91 from rfl, show obc.toNat = 123 from rfl,
      show (':').toNat = 58 from rfl, show ('.').toNat = 46 from rfl]
  all_goals omega

theorem plainChar_props (c : Char) (h : plainChar c = true) :
    c ≠ ':' ∧ c ≠ nlc := by
  have h2 : ((((((65 ≤ c.toNat ∧ c.toNat ≤ 90 ∨ 97 ≤ c.toNat ∧ c.toNat ≤ 122) ∨
      48 ≤ c.toNat ∧ c.toNat ≤ 57) ∨ c.toNat = 95) ∨ c.toNat = 46) ∨
      c.toNat = 47) ∨ c.toNat = 45) ∨ c.toNat = 32 := by
    simpa only [plainChar, asciiAlpha, asciiDigit, Bool.or_eq_true, Bool.and_eq_true,
      decide_eq_true_eq, char_eq_iff_toNat, show ('_').toNat = 95 from rfl,
      show ('.').toNat = 46 from rfl, show ('/').toNat = 47 from rfl,
      show ('-').toNat = 45 from rfl, show (' ').toNat = 32 from rfl] using h
  constructor
  all_goals
    simp only [ne_eq, char_eq_iff_toNat, show (':').toNat = 58 from rfl,
      show nlc.toNat = 10 from rfl]
  all_goals omega

theorem okStr_chars (s : String) (h : okStr s = true) :
    ∀ c ∈ s.data, 32 ≤ c.toNat ∧ c.toNat < 127 := by
  intro c hc
  have h2 : ∀ x ∈ s.data, 32 ≤ x.toNat ∧ x.toNat < 127 := by simpa [okStr] using h
  exact h2 c hc

theorem okStr_no_nlc (s : String) (h : okStr s = true) : nlc ∉ s.data := by
  intro hm
  have h2 := okStr_chars s h nlc hm
  rw [nlc_toNat] at h2
  omega

theorem isDigitC_bounds (c : Char) (h : isDigitC c = true) :
    48 ≤ c.toNat ∧ c.toNat ≤ 57 := by
  simpa [isDigitC] using h

theorem natRepr_digits (m : Nat) : ∀ c ∈ (natRepr m).data, isDigitC c = true := by
  intro c hc
  unfold natRepr at hc
  by_cases hm : m = 0
  · rw [if_pos hm, show ("0" : String).data = ['0'] from rfl] at hc
    rcases List.mem_singleton.mp hc with rfl
    decide
  · rw [if_neg hm] at hc
    exact natDigitsAux_digits m m c (List.mem_reverse.mp hc)

theorem natRepr_ne_nil (m : Nat) : (natRepr m).data ≠ [] := by
  unfold natRepr
  by_cases hm : m = 0
  · rw [if_pos hm]
    simp
  · rw [if_neg hm]
    match m, hm with
    | m + 1, _ =>
      intro he
      exact natDigitsAux_ne_nil m m (List.reverse_eq_nil_iff.mp he)

theorem resolvePlain_not_reserved (cs : List Char) (h0 : ¬ cs = [])
    (h : (⟨cs⟩ : String) ∉ yamlReserved) :
    resolvePlain cs = (match parseIntLit cs with
      | some n => PyVal.pyInt n
      | none => PyVal.pyStr ⟨cs⟩) := by
  have h3 : (⟨cs⟩ : String) ∉ nullWords ∧ (⟨cs⟩ : String) ∉ trueWords ∧
      (⟨cs⟩ : String) ∉ falseWords := by
    simpa [yamlReserved, List.mem_append, not_or] using h
  simp only [resolvePlain]
  rw [if_neg h0, if_neg (by simpa using h3.1), if_neg (by simpa using h3.2.1),
    if_neg (by simpa using h3.2.2)]

theorem reserved_not_mem_of_head (c : Char) (cs : List Char)
    (h1 : asciiAlpha c = false) (h2 : ¬ c = Char.ofNat 126) :
    (⟨c :: cs⟩ : String) ∉ yamlReserved := by
  intro hmem
  obtain ⟨d, ds, hd, hh⟩ := reserved_mem_head ⟨c :: cs⟩ (by simpa using hmem)
  have hcd : c = d := by injection hd
  subst hcd
  rcases hh with hh | hh
  · rw [h1] at hh
    cases hh
  · exact h2 hh

theorem parseNatDigits_head_not_digit (c : Char) (cs : List Char)
    (h : isDigitC c = false) : parseNatDigits (c :: cs) = none := by
  unfold parseNatDigits
  rw [if_neg (by simp), if_neg]
  rw [List.all_cons, h]
  simp

theorem resolvePlain_of_plain (s : String) (h : isPlainStr s = true) :
    resolvePlain s.data = PyVal.pyStr s := by
  have hp : isPlainStrL s.data = true ∧ yamlReserved.contains s = false := by
    simpa [isPlainStr, Bool.and_eq_true, Bool.not_eq_true'] using h
  match hd : s.data with
  | [] =>
    rw [hd] at hp
    exact absurd hp.1 (by simp [isPlainStrL])
  | c :: cs =>
    have hfirst : plainFirst c = true := by
      have := hp.1
      rw [hd] at this
      simp only [isPlainStrL, Bool.and_eq_true] at this
      exact this.1.1
    obtain ⟨hdig, hminus, hplus, _⟩ := plainFirst_props c hfirst
    have hnr : (⟨c :: cs⟩ : String) ∉ yamlReserved := by
      have hnm : s ∉ yamlReserved := by simpa using hp.2
      have : (⟨s.data⟩ : String) ∉ yamlReserved := by
        rw [show (⟨s.data⟩ : String) = s from rfl]
        exact hnm
      rw [hd] at this
      exact this
    rw [resolvePlain_not_reserved (c :: cs) (by simp) hnr]
    have hint : parseIntLit (c :: cs) = none := by
      simp only [parseIntLit]
      rw [if_neg hminus, if_neg hplus, parseNatDigits_head_not_digit c cs hdig]
      rfl
    rw [hint]
    show PyVal.pyStr ⟨c :: cs⟩ = PyVal.pyStr s
    rw [← hd]

theorem startsSeq_false_of_head (c : Char) (cs : List Char) (h : ¬ c = '-') :
    startsSeq (c :: cs) = false := by
  cases cs with
  | nil => rfl
  | cons d ds =>
    simp [startsSeq, h]

theorem canonSort_scalar (w : PyVal) (h : okScalar w = true) : canonSort w = w := by
  cases w with
  | pyList xs => exact absurd h (by simp [okScalar])
  | pyDict kvs => exact absurd h (by simp [okScalar])
  | pyNone => rfl
  | pyBool b => rfl
  | pyInt n => rfl
  | pyStr s => rfl

theorem canonList_scalars (xs : List PyVal) (h : xs.all okScalar = true) :
    canonList xs = xs := by
  induction xs with
  | nil => rfl
  | cons x xs ih =>
    rw [List.all_cons, Bool.and_eq_true] at h
    rw [canonList, canonSort_scalar x h.1, ih h.2]

theorem canonKvs_scalars (kvs : List (String × PyVal))
    (h : kvs.all (fun kv => okScalar kv.2) = true) : canonKvs kvs = kvs := by
  induction kvs with
  | nil => rfl
  | cons kv kvs ih =>
    rw [List.all_cons, Bool.and_eq_true] at h
    match kv with
    | (k, v) => rw [canonKvs, canonSort_scalar v h.1, ih h.2]

theorem mem_sqEsc (s : List Char) (c : Char) (h : c ∈ sqEsc s) : c = sqc ∨ c ∈ s := by
  induction s with
  | nil => cases h
  | cons d ds ih =>
    rw [sqEsc] at h
    by_cases hd : d = sqc
    · rw [if_pos hd] at h
      rcases List.mem_cons.mp h with rfl | h
      · exact Or.inl rfl
      · rcases List.mem_cons.mp h with rfl | h
        · exact Or.inl rfl
        · rcases ih h with h2 | h2
          · exact Or.inl h2
          · exact Or.inr (List.mem_cons_of_mem d h2)
    · rw [if_neg hd] at h
      rcases List.mem_cons.mp h with rfl | h
      · exact Or.inr (List.mem_cons_self c ds)
      · rcases ih h with h2 | h2
        · exact Or.inl h2
        · exact Or.inr (List.mem_cons_of_mem d h2)

theorem parseMapLine_no_colon (c : Char) (rest : List Char)
    (h1 : ¬ c = ' ') (h2 : ¬ c = sqc) (h3 : ¬ c = dqc) (h4 : ':' ∉ c :: rest) :
    parseMapLine (c :: rest) = none := by
  simp only [parseMapLine]
  rw [if_neg h1, if_neg h2, if_neg h3, splitColonSp_none _ h4]

theorem intRepr_chars (n : Int) : ∀ c ∈ (intRepr n).data, isDigitC c = true ∨ c = '-' := by
  match n with
  | Int.ofNat m =>
    intro c hc
    exact Or.inl (natRepr_digits m c hc)
  | Int.negSucc m =>
    intro c hc
    rw [show intRepr (Int.negSucc m) = "-" ++ natRepr (m + 1) from rfl,
      String.data_append] at hc
    rcases List.mem_append.mp hc with hc | hc
    · rcases List.mem_singleton.mp hc with rfl
      exact Or.inr rfl
    · exact Or.inl (natRepr_digits (m + 1) c hc)

theorem intRepr_shape (n : Int) : ∃ c rest, (intRepr n).data = c :: rest ∧
    (isDigitC c = true ∨
      (c = '-' ∧ ∃ d rest2, rest = d :: rest2 ∧ isDigitC d = true)) := by
  match n with
  | Int.ofNat m =>
    match hd : (natRepr m).data with
    | [] => exact absurd hd (natRepr_ne_nil m)
    | c :: rest =>
      refine ⟨c, rest, rfl, Or.inl ?_⟩
      exact natRepr_digits m c (hd ▸ List.mem_cons_self c rest)
  | Int.negSucc m =>
    match hd : (natRepr (m + 1)).data with
    | [] => exact absurd hd (natRepr_ne_nil (m + 1))
    | d :: rest2 =>
      refine ⟨'-', d :: rest2, ?_, Or.inr ⟨rfl, d, rest2, rfl, ?_⟩⟩
      · rw [show intRepr (Int.negSucc m) = "-" ++ natRepr (m + 1) from rfl,
          String.data_append, hd]
        rfl
      · exact natRepr_digits (m + 1) d (hd ▸ List.mem_cons_self d rest2)

theorem intRepr_no_colon (n : Int) : ':' ∉ (intRepr n).data := by
  intro hm
  rcases intRepr_chars n ':' hm with h | h
  · rcases isDigitC_bounds ':' h with ⟨h1, h2⟩
    rw [show (':').toNat = 58 from rfl] at h1 h2
    omega
  · cases h

theorem intRepr_no_nlc (n : Int) : nlc ∉ (intRepr n).data := by
  intro hm
  rcases intRepr_chars n nlc hm with h | h
  · rcases isDigitC_bounds nlc h with ⟨h1, h2⟩
    rw [nlc_toNat] at h1 h2
    omega
  · cases h

theorem int_scalar_line (n : Int) :
    parseScalarLine (intRepr n).data = some (PyVal.pyInt n) ∧
      parseMapLine (intRepr n).data = none ∧
      startsSeq (intRepr n).data = false := by
  obtain ⟨c, rest, hd, hshape⟩ := intRepr_shape n
  have hc : isDigitC c = true ∨ c = '-' := by
    rcases hshape with h | h
    · exact Or.inl h
    · exact Or.inr h.1
  have hcn : 45 ≤ c.toNat ∧ c.toNat ≤ 57 := by
    rcases hc with h | h
    · rcases isDigitC_bounds c h with ⟨h1, h2⟩
      omega
    · rw [h, show ('-').toNat = 45 from rfl]
      omega
  have hsp : ¬ c = ' ' := by
    rw [char_eq_iff_toNat, show (' ').toNat = 32 from rfl]
    omega
  have hsq : ¬ c = sqc := by
    rw [char_eq_iff_toNat, sqc_toNat]
    omega
  have hdq : ¬ c = dqc := by
    rw [char_eq_iff_toNat, show dqc.toNat = 34 from rfl]
    omega
  have hss : startsSeq (c :: rest) = false := by
    rcases hshape with h | ⟨hminus, d, rest2, hrest, hdig⟩
    · exact startsSeq_false_of_head c rest (isDigitC_ne_minus c h)
    · rw [hrest]
      have hdsp : ¬ d = ' ' := by
        rcases isDigitC_bounds d hdig with ⟨h1, h2⟩
        rw [char_eq_iff_toNat, show (' ').toNat = 32 from rfl]
        omega
      simp [startsSeq, hdsp]
  have hcol : ':' ∉ c :: rest := hd ▸ intRepr_no_colon n
  refine ⟨?_, ?_, ?_⟩
  · rw [hd]
    simp only [parseScalarLine]
    rw [if_neg hsq, if_neg hdq,
      if_neg (fun he => by
        have h1 : c = '[' := by injection he
        revert hcn
        rw [h1]
        decide),
      if_neg (fun he => by
        have h1 : c = obc := by injection he
        revert hcn
        rw [h1]
        decide),
      if_neg ?hguard]
    case hguard =>
      rintro (hg | hg | hg)
      · rw [hss] at hg
        cases hg
      · exact hsp hg
      · rw [splitColonSp_none _ hcol] at hg
        cases hg
    have hres : (⟨c :: rest⟩ : String) ∉ yamlReserved := by
      refine reserved_not_mem_of_head c rest ?_ ?_
      · simp only [asciiAlpha, Bool.or_eq_false_iff, Bool.and_eq_false_iff,
          decide_eq_false_iff_not]
        constructor
        · left
          omega
        · left
          omega
      · rw [char_eq_iff_toNat, toNat_ofNat_valid 126 (by omega)]
        omega
    rw [resolvePlain_not_reserved (c :: rest) (by simp) hres]
    have hint := parseIntLit_intRepr n
    rw [hd] at hint
    rw [hint]
  · rw [hd]
    exact parseMapLine_no_colon c rest hsp hsq hdq hcol
  · rw [hd]
    exact hss

theorem needsDouble_of_okStr (s : String) (h : okStr s = true) :
    needsDoubleStr s = false := by
  simp only [needsDoubleStr]
  rw [List.any_eq_false]
  intro c hc
  have h2 := okStr_chars s h c hc
  simp only [Bool.or_eq_true, decide_eq_true_eq, not_or, not_lt, not_le]
  omega

theorem isPlainStr_shape (s : String) (h : isPlainStr s = true) :
    ∃ c cs, s.data = c :: cs ∧ plainFirst c = true ∧ cs.all plainChar = true := by
  have hp : isPlainStrL s.data = true := by
    have := by simpa [isPlainStr, Bool.and_eq_true] using h
    exact this.1
  match hd : s.data with
  | [] =>
    rw [hd] at hp
    exact absurd hp (by simp [isPlainStrL])
  | c :: cs =>
    rw [hd] at hp
    simp only [isPlainStrL, Bool.and_eq_true] at hp
    exact ⟨c, cs, rfl, hp.1.1, hp.1.2⟩

theorem plain_no_colon (c : Char) (cs : List Char) (h1 : plainFirst c = true)
    (h2 : cs.all plainChar = true) : ':' ∉ c :: cs := by
  intro hm
  rcases List.mem_cons.mp hm with he | hm2
  · exact (plainFirst_props c h1).2.2.2.2.2.2.2.2.1 he.symm
  · have := List.all_eq_true.mp h2 ':' hm2
    exact (plainChar_props ':' this).1 rfl

theorem plain_str_line (s : String) (hpl : isPlainStr s = true) :
    parseScalarLine s.data = some (PyVal.pyStr s) ∧ parseMapLine s.data = none ∧
      startsSeq s.data = false := by
  obtain ⟨c, cs, hd, hfirst, hall⟩ := isPlainStr_shape s hpl
  obtain ⟨_, hminus, _, hsp, hsq, hdq, hob, hobc, hcolon, _⟩ := plainFirst_props c hfirst
  have hcol : ':' ∉ c :: cs := plain_no_colon c cs hfirst hall
  have hss : startsSeq (c :: cs) = false := startsSeq_false_of_head c cs hminus
  refine ⟨?_, ?_, ?_⟩
  · rw [hd]
    simp only [parseScalarLine]
    rw [if_neg hsq, if_neg hdq,
      if_neg (fun he => hob (by injection he)),
      if_neg (fun he => hobc (by injection he)),
      if_neg ?hguard]
    case hguard =>
      rintro (hg | hg | hg)
      · rw [hss] at hg
        cases hg
      · exact hsp hg
      · rw [splitColonSp_none _ hcol] at hg
        cases hg
    rw [← hd, resolvePlain_of_plain s hpl]
  · rw [hd]
    exact parseMapLine_no_colon c cs hsp hsq hdq hcol
  · rw [hd]
    exact hss

theorem sqText_data (s : String) :
    (sqText s).data = sqc :: (sqEsc s.data ++ sqc :: []) := rfl

theorem sq_str_line (s : String) :
    parseScalarLine (sqText s).data = some (PyVal.pyStr s) ∧
      parseMapLine (sqText s).data = none ∧
      startsSeq (sqText s).data = false := by
  have hscan : sqScan (sqEsc s.data ++ sqc :: []) = some (s.data, []) :=
    sqScan_inv s.data [] (by simp)
  refine ⟨?_, ?_, ?_⟩
  · rw [sqText_data]
    simp only [parseScalarLine]
    rw [if_pos trivial, hscan]
  · rw [sqText_data]
    simp only [parseMapLine]
    rw [if_pos trivial, hscan, if_neg (by decide)]
  · rw [sqText_data]
    exact startsSeq_false_of_head _ _ (by decide)

theorem sqText_no_nlc (s : String) (h : okStr s = true) : nlc ∉ (sqText s).data := by
  rw [sqText_data]
  intro hm
  rcases List.mem_cons.mp hm with he | hm2
  · cases he
  · rcases List.mem_append.mp hm2 with hm3 | hm3
    · rcases mem_sqEsc s.data nlc hm3 with he | hm4
      · cases he
      · exact okStr_no_nlc s h hm4
    · rcases List.mem_singleton.mp hm3 with he
      cases he

theorem okScalar_line (w : PyVal) (h : okScalar w = true) :
    parseScalarLine (yamlScalarText w).data = some w ∧
      parseMapLine (yamlScalarText w).data = none ∧
      startsSeq (yamlScalarText w).data = false ∧
      (yamlScalarText w).data ≠ [] ∧ nlc ∉ (yamlScalarText w).data := by
  cases w with
  | pyNone => exact ⟨by decide, by decide, by decide, by decide, by decide⟩
  | pyBool b => cases b with
    | true => exact ⟨by decide, by decide, by decide, by decide, by decide⟩
    | false => exact ⟨by decide, by decide, by decide, by decide, by decide⟩
  | pyInt n =>
    obtain ⟨h1, h2, h3⟩ := int_scalar_line n
    obtain ⟨c, rest, hd, _⟩ := intRepr_shape n
    exact ⟨h1, h2, h3, by rw [show yamlScalarText (PyVal.pyInt n) = intRepr n from rfl, hd]; simp,
      intRepr_no_nlc n⟩
  | pyStr s =>
    have hok : okStr s = true := by simpa [okScalar] using h
    rw [show yamlScalarText (PyVal.pyStr s) = yamlStrText s from rfl]
    by_cases hpl : isPlainStr s = true
    · rw [show yamlStrText s = s from by rw [yamlStrText, if_pos hpl]]
      obtain ⟨h1, h2, h3⟩ := plain_str_line s hpl
      obtain ⟨c, cs, hd, -, -⟩ := isPlainStr_shape s hpl
      exact ⟨h1, h2, h3, by rw [hd]; simp, okStr_no_nlc s hok⟩
    · rw [show yamlStrText s = sqText s from by
        rw [yamlStrText, if_neg hpl, needsDouble_of_okStr s hok]
        rfl]
      obtain ⟨h1, h2, h3⟩ := sq_str_line s
      exact ⟨h1, h2, h3, by rw [sqText_data]; simp, sqText_no_nlc s hok⟩
  | pyList xs => exact absurd h (by simp [okScalar])
  | pyDict kvs => exact absurd h (by simp [okScalar])

theorem stripEnd_id (ls : List (List Char)) (h : ∀ l ∈ ls, ¬ l = ['.', '.', '.']) :
    stripEnd ls = ls := by
  unfold stripEnd
  cases hl : ls.getLast? with
  | none => rfl
  | some l =>
    show (if l = ['.', '.', '.'] then ls.dropLast else ls) = ls
    rw [if_neg (h l (List.mem_of_mem_getLast? hl))]

theorem filter_ne_nil_id (ls : List (List Char)) (h : ∀ l ∈ ls, ¬ l = []) :
    ls.filter (fun l => l ≠ []) = ls := by
  refine List.filter_eq_self.mpr ?_
  intro a ha
  simp [h a ha]

theorem colon_mem_ne_dots (t : List Char) (h : ':' ∈ t) : ¬ t = ['.', '.', '.'] := by
  intro he
  rw [he] at h
  revert h
  decide

theorem parseDoc_single_scalar (w : PyVal) (t : List Char)
    (h1 : parseScalarLine t = some w) (h2 : parseMapLine t = none)
    (h3 : startsSeq t = false) (h4 : ¬ t = []) (h5 : ¬ t = ['.', '.', '.']) :
    parseDoc [t] = some w := by
  have hfil : ([t] : List (List Char)).filter (fun x => x ≠ []) = [t] := by
    refine filter_ne_nil_id [t] ?_
    intro l hl
    rcases List.mem_singleton.mp hl with rfl
    exact h4
  have hse : stripEnd (([t] : List (List Char)).filter (fun x => x ≠ [])) = [t] := by
    rw [hfil]
    refine stripEnd_id [t] ?_
    intro l hl
    rcases List.mem_singleton.mp hl with rfl
    exact h5
  simp only [parseDoc]
  rw [hse]
  show (if startsSeq t then (parseSeqLines [t]).map PyVal.pyList
    else
      match parseMapLinesF [t] with
      | some kvs => some (PyVal.pyDict kvs)
      | none =>
        match ([t] : List (List Char)) with
        | [l1] => parseScalarLine l1
        | _ => none) = some w
  rw [if_neg (by simp [h3])]
  rw [show parseMapLinesF [t] = none from ?hmf]
  case hmf =>
    simp only [parseMapLinesF]
    rw [h2]
  exact h1

theorem parseDoc_scalar_end (w : PyVal) (t : List Char)
    (h1 : parseScalarLine t = some w) (h2 : parseMapLine t = none)
    (h3 : startsSeq t = false) (h4 : ¬ t = []) :
    parseDoc [t, ['.', '.', '.']] = some w := by
  have hfil : ([t, ['.', '.', '.']] : List (List Char)).filter (fun x => x ≠ []) =
      [t, ['.', '.', '.']] := by
    refine filter_ne_nil_id _ ?_
    intro l hl
    rcases List.mem_cons.mp hl with rfl | hl2
    · exact h4
    · rcases List.mem_singleton.mp hl2 with rfl
      simp
  have hse : stripEnd (([t, ['.', '.', '.']] : List (List Char)).filter
      (fun x => x ≠ [])) = [t] := by
    rw [hfil]
    unfold stripEnd
    rw [show ([t, ['.', '.', '.']] : List (List Char)).getLast? = some ['.', '.', '.']
      from by simp]
    show (if (['.', '.', '.'] : List Char) = ['.', '.', '.'] then
      ([t, ['.', '.', '.']] : List (List Char)).dropLast else [t, ['.', '.', '.']]) = [t]
    rw [if_pos rfl]
    rfl
  simp only [parseDoc]
  rw [hse]
  show (if startsSeq t then (parseSeqLines [t]).map PyVal.pyList
    else
      match parseMapLinesF [t] with
      | some kvs => some (PyVal.pyDict kvs)
      | none =>
        match ([t] : List (List Char)) with
        | [l1] => parseScalarLine l1
        | _ => none) = some w
  rw [if_neg (by simp [h3])]
  rw [show parseMapLinesF [t] = none from ?hmf]
  case hmf =>
    simp only [parseMapLinesF]
    rw [h2]
  exact h1

theorem yamlDumpLines_scalar (w : PyVal) (h : okScalar w = true) :
    yamlDumpLines w = yamlScalarText w :: plainRootEnd w := by
  cases w with
  | pyNone => rfl
  | pyBool b => rfl
  | pyInt n => rfl
  | pyStr s => rfl
  | pyList xs => exact absurd h (by simp [okScalar])
  | pyDict kvs => exact absurd h (by simp [okScalar])

theorem root_scalar_load (w : PyVal) (h : okScalar w = true) :
    parseDoc ((yamlDumpLines w).map (fun l => l.data)) = some w := by
  obtain ⟨h1, h2, h3, h4, _⟩ := okScalar_line w h
  rw [yamlDumpLines_scalar w h]
  cases w with
  | pyNone => exact parseDoc_scalar_end _ _ h1 h2 h3 h4
  | pyBool b => exact parseDoc_scalar_end _ _ h1 h2 h3 h4
  | pyInt n => exact parseDoc_scalar_end _ _ h1 h2 h3 h4
  | pyStr s =>
    by_cases hpl : isPlainStr s = true
    · rw [show plainRootEnd (PyVal.pyStr s) = ["..."] from by simp [plainRootEnd, hpl]]
      exact parseDoc_scalar_end _ _ h1 h2 h3 h4
    · rw [show plainRootEnd (PyVal.pyStr s) = [] from by simp [plainRootEnd, hpl]]
      have hok : okStr s = true := by simpa [okScalar] using h
      have h5 : ¬ (yamlScalarText (PyVal.pyStr s)).data = ['.', '.', '.'] := by
        rw [show yamlScalarText (PyVal.pyStr s) = yamlStrText s from rfl,
          show yamlStrText s = sqText s from by
            rw [yamlStrText, if_neg hpl, needsDouble_of_okStr s hok]
            rfl,
          sqText_data]
        intro he
        have : sqc = '.' := by injection he
        exact absurd this (by decide)
      exact parseDoc_single_scalar _ _ h1 h2 h3 h4 h5
  | pyList xs => exact absurd h (by simp [okScalar])
  | pyDict kvs => exact absurd h (by simp [okScalar])

theorem yamlSeqItem_scalar (w : PyVal) (h : okScalar w = true) (i : Nat) :
    yamlSeqItem i w = [indentStr i ++ "- " ++ yamlScalarText w] := by
  cases w with
  | pyNone => rfl
  | pyBool b => rfl
  | pyInt n => rfl
  | pyStr s => rfl
  | pyList xs => exact absurd h (by simp [okScalar])
  | pyDict kvs => exact absurd h (by simp [okScalar])

theorem yamlSeqLines_scalars (i : Nat) (xs : List PyVal) (h : xs.all okScalar = true) :
    yamlSeqLines i xs = xs.map (fun w => indentStr i ++ "- " ++ yamlScalarText w) := by
  induction xs with
  | nil => rfl
  | cons x xs ih =>
    rw [List.all_cons, Bool.and_eq_true] at h
    rw [yamlSeqLines, yamlSeqItem_scalar x h.1 i, ih h.2, List.map_cons,
      List.singleton_append]

theorem seq_line_data (w : PyVal) :
    (indentStr 0 ++ "- " ++ yamlScalarText w).data = '-' :: ' ' :: (yamlScalarText w).data := by
  rw [String.data_append, String.data_append]
  rfl

theorem parseSeqLines_scalars (xs : List PyVal) (h : xs.all okScalar = true) :
    parseSeqLines ((xs.map (fun w => indentStr 0 ++ "- " ++ yamlScalarText w)).map
      (fun l => l.data)) = some xs := by
  induction xs with
  | nil => rfl
  | cons x xs ih =>
    rw [List.all_cons, Bool.and_eq_true] at h
    rw [List.map_cons, List.map_cons, seq_line_data]
    simp only [parseSeqLines]
    rw [if_pos ⟨trivial, trivial⟩, (okScalar_line x h.1).1, ih h.2]

theorem root_seq_load (x : PyVal) (xs : List PyVal)
    (h : (x :: xs).all okScalar = true) :
    parseDoc ((yamlDumpLines (PyVal.pyList (x :: xs))).map (fun l => l.data)) =
      some (PyVal.pyList (x :: xs)) := by
  rw [show yamlDumpLines (PyVal.pyList (x :: xs)) = yamlSeqLines 0 (x :: xs) from rfl,
    yamlSeqLines_scalars 0 (x :: xs) h]
  have hlines : ∀ l ∈ (((x :: xs).map
      (fun w => indentStr 0 ++ "- " ++ yamlScalarText w)).map (fun l => l.data)),
      ∃ w, l = '-' :: ' ' :: (yamlScalarText w).data := by
    intro l hl
    rw [List.map_map] at hl
    obtain ⟨w, _, hw⟩ := List.mem_map.mp hl
    exact ⟨w, by rw [← hw]; exact seq_line_data w⟩
  have hfil : (((x :: xs).map (fun w => indentStr 0 ++ "- " ++ yamlScalarText w)).map
      (fun l => l.data)).filter (fun l => l ≠ []) = (((x :: xs).map
      (fun w => indentStr 0 ++ "- " ++ yamlScalarText w)).map (fun l => l.data)) := by
    refine filter_ne_nil_id _ ?_
    intro l hl
    obtain ⟨w, hw⟩ := hlines l hl
    rw [hw]
    simp
  have hse : stripEnd ((((x :: xs).map
      (fun w => indentStr 0 ++ "- " ++ yamlScalarText w)).map (fun l => l.data)).filter
      (fun l => l ≠ [])) = (((x :: xs).map
      (fun w => indentStr 0 ++ "- " ++ yamlScalarText w)).map (fun l => l.data)) := by
    rw [hfil]
    refine stripEnd_id _ ?_
    intro l hl
    obtain ⟨w, hw⟩ := hlines l hl
    rw [hw]
    intro he
    have : (' ' : Char) = '.' := by
      have h2 : ('-' : Char) :: ' ' :: (yamlScalarText w).data = '.' :: '.' :: ['.'] := he
      injection h2 with _ h3
      injection h3 with h4 _
    exact absurd this (by decide)
  simp only [parseDoc]
  rw [hse, List.map_cons, List.map_cons, seq_line_data]
  show (if startsSeq ('-' :: ' ' :: (yamlScalarText x).data) then
      (parseSeqLines (('-' :: ' ' :: (yamlScalarText x).data) ::
        (xs.map (fun w => indentStr 0 ++ "- " ++ yamlScalarText w)).map
          (fun l => l.data))).map PyVal.pyList
    else _) = some (PyVal.pyList (x :: xs))
  rw [if_pos (by simp [startsSeq])]
  rw [show ('-' :: ' ' :: (yamlScalarText x).data) ::
      ((xs.map (fun w => indentStr 0 ++ "- " ++ yamlScalarText w)).map
        (fun l => l.data)) = (((x :: xs).map
      (fun w => indentStr 0 ++ "- " ++ yamlScalarText w)).map (fun l => l.data)) from by
    rw [List.map_cons, List.map_cons, seq_line_data]]
  rw [parseSeqLines_scalars (x :: xs) h]
  rfl

theorem yamlStrText_plain (k : String) (hpl : isPlainStr k = true) :
    yamlStrText k = k := by
  rw [yamlStrText, if_pos hpl]

theorem yamlStrText_sq (k : String) (hk : okStr k = true) (hpl : ¬ isPlainStr k = true) :
    yamlStrText k = sqText k := by
  rw [yamlStrText, if_neg hpl, needsDouble_of_okStr k hk]
  rfl

theorem yamlStrText_head (k : String) (hk : okStr k = true) :
    ∃ c cs, (yamlStrText k).data = c :: cs ∧ ¬ c = '-' ∧ ¬ c = ' ' := by
  by_cases hpl : isPlainStr k = true
  · rw [yamlStrText_plain k hpl]
    obtain ⟨c, cs, hd, hfirst, -⟩ := isPlainStr_shape k hpl
    obtain ⟨-, hminus, -, hsp, -⟩ := plainFirst_props c hfirst
    exact ⟨c, cs, hd, hminus, hsp⟩
  · rw [yamlStrText_sq k hk hpl, sqText_data]
    exact ⟨sqc, sqEsc k.data ++ sqc :: [], rfl, by decide, by decide⟩

theorem yamlStrText_no_nlc (k : String) (hk : okStr k = true) :
    nlc ∉ (yamlStrText k).data := by
  by_cases hpl : isPlainStr k = true
  · rw [yamlStrText_plain k hpl]
    exact okStr_no_nlc k hk
  · rw [yamlStrText_sq k hk hpl]
    exact sqText_no_nlc k hk

theorem yamlMapItem_scalar (i : Nat) (k : String) (v : PyVal) (h : okScalar v = true) :
    yamlMapItem i k v = [indentStr i ++ yamlStrText k ++ ": " ++ yamlScalarText v] := by
  cases v with
  | pyNone => rfl
  | pyBool b => rfl
  | pyInt n => rfl
  | pyStr s => rfl
  | pyList xs => exact absurd h (by simp [okScalar])
  | pyDict kvs => exact absurd h (by simp [okScalar])

theorem yamlMapLines_scalars (i : Nat) (kvs : List (String × PyVal))
    (h : kvs.all (fun kv => okScalar kv.2) = true) :
    yamlMapLines i kvs =
      kvs.map (fun kv => indentStr i ++ yamlStrText kv.1 ++ ": " ++ yamlScalarText kv.2) := by
  induction kvs with
  | nil => rfl
  | cons kv kvs ih =>
    rw [List.all_cons, Bool.and_eq_true] at h
    match kv with
    | (k, v) =>
      rw [yamlMapLines, yamlMapItem_scalar i k v h.1, ih h.2, List.map_cons,
        List.singleton_append]

theorem map_line_data (k : String) (v : PyVal) :
    (indentStr 0 ++ yamlStrText k ++ ": " ++ yamlScalarText v).data =
      (yamlStrText k).data ++ ':' :: ' ' :: (yamlScalarText v).data := by
  rw [String.data_append, String.data_append, String.data_append]
  show ([] ++ (yamlStrText k).data) ++ [':', ' '] ++ (yamlScalarText v).data = _
  rw [List.nil_append, List.append_assoc]
  rfl

theorem parseMapLine_dump (k : String) (v : PyVal) (hk : okStr k = true)
    (hv : okScalar v = true) :
    parseMapLine ((yamlStrText k).data ++ ':' :: ' ' :: (yamlScalarText v).data) =
      some (k, v) := by
  by_cases hpl : isPlainStr k = true
  · rw [yamlStrText_plain k hpl]
    obtain ⟨c, cs, hd, hfirst, hall⟩ := isPlainStr_shape k hpl
    obtain ⟨-, -, -, hsp, hsq, hdq, -⟩ := plainFirst_props c hfirst
    have hcol : ':' ∉ k.data := by
      rw [hd]
      exact plain_no_colon c cs hfirst hall
    rw [hd, List.cons_append]
    simp only [parseMapLine]
    rw [if_neg hsp, if_neg hsq, if_neg hdq]
    rw [show splitColonSp (c :: (cs ++ ':' :: ' ' :: (yamlScalarText v).data)) =
        some (k.data, (yamlScalarText v).data) from by
      rw [← List.cons_append, ← hd]
      exact splitColonSp_append k.data _ hcol]
    show Option.map (fun w => ((⟨k.data⟩ : String), w))
      (parseScalarLine (yamlScalarText v).data) = some (k, v)
    rw [(okScalar_line v hv).1]
    rfl
  · rw [yamlStrText_sq k hk hpl, sqText_data]
    rw [List.cons_append, List.append_assoc, List.cons_append, List.nil_append]
    simp only [parseMapLine]
    rw [if_pos trivial,
      sqScan_inv k.data (':' :: ' ' :: (yamlScalarText v).data) (by
        intro he
        have h2 : (':' : Char) = sqc := by
          rw [show (':' :: ' ' :: (yamlScalarText v).data).head? = some ':' from rfl] at he
          injection he
        exact absurd h2 (by decide)),
      if_neg (by decide)]
    show Option.map (fun w => ((⟨k.data⟩ : String), w))
      (parseScalarLine (yamlScalarText v).data) = some (k, v)
    rw [(okScalar_line v hv).1]
    rfl

theorem parseMapLinesF_dump (kvs : List (String × PyVal))
    (h : kvs.all (fun kv => okStr kv.1 && okScalar kv.2) = true) :
    parseMapLinesF ((kvs.map (fun kv => indentStr 0 ++ yamlStrText kv.1 ++ ": " ++
      yamlScalarText kv.2)).map (fun l => l.data)) = some kvs := by
  induction kvs with
  | nil => rfl
  | cons kv kvs ih =>
    rw [List.all_cons, Bool.and_eq_true] at h
    match kv with
    | (k, v) =>
      have hkv : okStr k = true ∧ okScalar v = true := by simpa using h.1
      rw [List.map_cons, List.map_cons]
      simp only [parseMapLinesF]
      rw [map_line_data, parseMapLine_dump k v hkv.1 hkv.2, ih h.2]

theorem all_values_of_all_items (kvs : List (String × PyVal))
    (h : kvs.all (fun kv => okStr kv.1 && okScalar kv.2) = true) :
    kvs.all (fun kv => okScalar kv.2) = true := by
  rw [List.all_eq_true] at h ⊢
  intro kv hkv
  have h2 : okStr kv.1 = true ∧ okScalar kv.2 = true := by simpa using h kv hkv
  simpa using h2.2

theorem root_map_load (p : String × PyVal) (ps : List (String × PyVal))
    (h : (p :: ps).all (fun kv => okStr kv.1 && okScalar kv.2) = true) :
    parseDoc ((yamlDumpLines (PyVal.pyDict (p :: ps))).map (fun l => l.data)) =
      some (PyVal.pyDict (p :: ps)) := by
  have hval : (p :: ps).all (fun kv => okScalar kv.2) = true :=
    all_values_of_all_items _ h
  rw [show yamlDumpLines (PyVal.pyDict (p :: ps)) = yamlMapLines 0 (p :: ps) from rfl,
    yamlMapLines_scalars 0 (p :: ps) hval]
  have hlines : ∀ l ∈ (((p :: ps).map (fun kv => indentStr 0 ++ yamlStrText kv.1 ++
      ": " ++ yamlScalarText kv.2)).map (fun l => l.data)), ':' ∈ l := by
    intro l hl
    rw [List.map_map] at hl
    obtain ⟨kv, _, hw⟩ := List.mem_map.mp hl
    rw [← hw]
    show ':' ∈ (indentStr 0 ++ yamlStrText kv.1 ++ ": " ++ yamlScalarText kv.2).data
    rw [map_line_data]
    exact List.mem_append.mpr (Or.inr (List.mem_cons_self _ _))
  have hfil : ((((p :: ps).map (fun kv => indentStr 0 ++ yamlStrText kv.1 ++
      ": " ++ yamlScalarText kv.2)).map (fun l => l.data)).filter (fun l => l ≠ [])) =
      (((p :: ps).map (fun kv => indentStr 0 ++ yamlStrText kv.1 ++
      ": " ++ yamlScalarText kv.2)).map (fun l => l.data)) := by
    refine filter_ne_nil_id _ ?_
    intro l hl he
    have := hlines l hl
    rw [he] at this
    cases this
  have hse : stripEnd (((((p :: ps).map (fun kv => indentStr 0 ++ yamlStrText kv.1 ++
      ": " ++ yamlScalarText kv.2)).map (fun l => l.data)).filter (fun l => l ≠ []))) =
      (((p :: ps).map (fun kv => indentStr 0 ++ yamlStrText kv.1 ++
      ": " ++ yamlScalarText kv.2)).map (fun l => l.data)) := by
    rw [hfil]
    refine stripEnd_id _ ?_
    intro l hl
    exact colon_mem_ne_dots l (hlines l hl)
  simp only [parseDoc]
  rw [hse, List.map_cons, List.map_cons, map_line_data]
  obtain ⟨c, cs, hd, hminus, -⟩ := yamlStrText_head p.1 (by
    have h2 : okStr p.1 = true ∧ okScalar p.2 = true := by
      simpa using List.all_eq_true.mp h p (List.mem_cons_self p ps)
    exact h2.1)
  show (if startsSeq ((yamlStrText p.1).data ++ ':' :: ' ' :: (yamlScalarText p.2).data)
      then _ else
      match parseMapLinesF (((yamlStrText p.1).data ++ ':' :: ' ' ::
          (yamlScalarText p.2).data) ::
          ((ps.map (fun kv => indentStr 0 ++ yamlStrText kv.1 ++ ": " ++
            yamlScalarText kv.2)).map (fun l => l.data))) with
      | some kvs => some (PyVal.pyDict kvs)
      | none =>
        match ((yamlStrText p.1).data ++ ':' :: ' ' :: (yamlScalarText p.2).data) ::
            ((ps.map (fun kv => indentStr 0 ++ yamlStrText kv.1 ++ ": " ++
              yamlScalarText kv.2)).map (fun l => l.data)) with
        | [l1] => parseScalarLine l1
        | _ => none) = some (PyVal.pyDict (p :: ps))
  rw [if_neg (by
    rw [hd, List.cons_append]
    rw [startsSeq_false_of_head c _ hminus]
    exact fun he => nomatch he)]
  rw [show ((yamlStrText p.1).data ++ ':' :: ' ' :: (yamlScalarText p.2).data) ::
      ((ps.map (fun kv => indentStr 0 ++ yamlStrText kv.1 ++ ": " ++
        yamlScalarText kv.2)).map (fun l => l.data)) =
      (((p :: ps).map (fun kv => indentStr 0 ++ yamlStrText kv.1 ++ ": " ++
        yamlScalarText kv.2)).map (fun l => l.data)) from by
    rw [List.map_cons, List.map_cons, map_line_data]]
  rw [parseMapLinesF_dump (p :: ps) h]

theorem all_of_perm {α : Type} (l1 l2 : List α) (hp : l1.Perm l2) (p : α → Bool)
    (h : l1.all p = true) : l2.all p = true := by
  rw [List.all_eq_true] at h ⊢
  intro x hx
  exact h x (hp.mem_iff.mpr hx)

theorem sortKvs_perm (kvs : List (String × PyVal)) : (sortKvs kvs).Perm kvs := by
  unfold sortKvs
  exact insertionSort_perm _ kvs

theorem mem_plainRootEnd (w : PyVal) (l : String) (h2 : l ∈ plainRootEnd w) :
    l = "..." := by
  cases w with
  | pyNone => simpa [plainRootEnd] using h2
  | pyBool b => simpa [plainRootEnd] using h2
  | pyInt n => simpa [plainRootEnd] using h2
  | pyStr s =>
    by_cases hpl : isPlainStr s = true
    · rw [show plainRootEnd (PyVal.pyStr s) = ["..."] from by simp [plainRootEnd, hpl]] at h2
      simpa using h2
    · rw [show plainRootEnd (PyVal.pyStr s) = [] from by simp [plainRootEnd, hpl]] at h2
      cases h2
  | pyList xs => cases h2
  | pyDict kvs => cases h2

theorem sortKvs_ne_nil (p : String × PyVal) (ps : List (String × PyVal)) :
    ¬ sortKvs (p :: ps) = [] := by
  intro he
  have hp := (sortKvs_perm (p :: ps)).length_eq
  rw [he] at hp
  simp at hp

theorem seq_lines_no_nlc (xs : List PyVal) (h : xs.all okScalar = true) :
    ∀ l ∈ yamlSeqLines 0 xs, nlc ∉ l.data := by
  rw [yamlSeqLines_scalars 0 xs h]
  intro l hl
  obtain ⟨w, hw, heq⟩ := List.mem_map.mp hl
  rw [← heq, seq_line_data]
  intro hm
  rcases List.mem_cons.mp hm with he | hm2
  · exact absurd he (by decide)
  · rcases List.mem_cons.mp hm2 with he | hm3
    · exact absurd he (by decide)
    · exact (okScalar_line w (List.all_eq_true.mp h w hw)).2.2.2.2 hm3

theorem map_lines_no_nlc (kvs : List (String × PyVal))
    (h : kvs.all (fun kv => okStr kv.1 && okScalar kv.2) = true) :
    ∀ l ∈ yamlMapLines 0 kvs, nlc ∉ l.data := by
  rw [yamlMapLines_scalars 0 kvs (all_values_of_all_items kvs h)]
  intro l hl
  obtain ⟨kv, hw, heq⟩ := List.mem_map.mp hl
  have h2 : okStr kv.1 = true ∧ okScalar kv.2 = true := by
    simpa using List.all_eq_true.mp h kv hw
  rw [← heq]
  show nlc ∉ (indentStr 0 ++ yamlStrText kv.1 ++ ": " ++ yamlScalarText kv.2).data
  rw [map_line_data]
  intro hm
  rcases List.mem_append.mp hm with hm2 | hm2
  · exact yamlStrText_no_nlc kv.1 h2.1 hm2
  · rcases List.mem_cons.mp hm2 with he | hm3
    · exact absurd he (by decide)
    · rcases List.mem_cons.mp hm3 with he | hm4
      · exact absurd he (by decide)
      · exact (okScalar_line kv.2 h2.2).2.2.2.2 hm4

theorem yaml_load_of_plainFlat (v : PyVal) (h : plainFlat v = true) :
    yaml_safe_load (yaml_dump v) = some (canonSort v) := by
  match v with
  | PyVal.pyNone => decide
  | PyVal.pyBool b => cases b <;> decide
  | PyVal.pyInt n =>
    have hok : okScalar (PyVal.pyInt n) = true := rfl
    have hcs : canonSort (PyVal.pyInt n) = PyVal.pyInt n := rfl
    rw [yaml_safe_load_eq_parseDoc (PyVal.pyInt n) ?hnl, hcs,
      root_scalar_load (PyVal.pyInt n) hok]
    case hnl =>
      rw [hcs, yamlDumpLines_scalar _ hok]
      intro l hl
      rcases List.mem_cons.mp hl with rfl | hl2
      · exact (okScalar_line _ hok).2.2.2.2
      · rw [mem_plainRootEnd _ _ hl2]
        decide
  | PyVal.pyStr s =>
    have hok : okScalar (PyVal.pyStr s) = true := by simpa [plainFlat] using h
    have hcs : canonSort (PyVal.pyStr s) = PyVal.pyStr s := rfl
    rw [yaml_safe_load_eq_parseDoc (PyVal.pyStr s) ?hnl, hcs,
      root_scalar_load (PyVal.pyStr s) hok]
    case hnl =>
      rw [hcs, yamlDumpLines_scalar _ hok]
      intro l hl
      rcases List.mem_cons.mp hl with rfl | hl2
      · exact (okScalar_line _ hok).2.2.2.2
      · rw [mem_plainRootEnd _ _ hl2]
        decide
  | PyVal.pyList [] => decide
  | PyVal.pyList (x :: xs) =>
    have hall : (x :: xs).all okScalar = true := by simpa [plainFlat] using h
    have hcs : canonSort (PyVal.pyList (x :: xs)) = PyVal.pyList (x :: xs) := by
      show PyVal.pyList (canonList (x :: xs)) = _
      rw [canonList_scalars (x :: xs) hall]
    rw [yaml_safe_load_eq_parseDoc (PyVal.pyList (x :: xs)) ?hnl, hcs,
      root_seq_load x xs hall]
    case hnl =>
      rw [hcs]
      show ∀ l ∈ yamlDumpLines (PyVal.pyList (x :: xs)), nlc ∉ l.data
      rw [show yamlDumpLines (PyVal.pyList (x :: xs)) = yamlSeqLines 0 (x :: xs) from rfl]
      exact seq_lines_no_nlc (x :: xs) hall
  | PyVal.pyDict [] => decide
  | PyVal.pyDict (p :: ps) =>
    have hall : (p :: ps).all (fun kv => okStr kv.1 && okScalar kv.2) = true := by
      have h2 := h
      rw [show plainFlat (PyVal.pyDict (p :: ps)) =
        ((p :: ps).all (fun kv => okStr kv.1 && okScalar kv.2) &&
          decide (((p :: ps).map Prod.fst).Nodup)) from rfl, Bool.and_eq_true] at h2
      exact h2.1
    have hcs : canonSort (PyVal.pyDict (p :: ps)) = PyVal.pyDict (sortKvs (p :: ps)) := by
      show PyVal.pyDict (sortKvs (canonKvs (p :: ps))) = _
      rw [canonKvs_scalars (p :: ps) (all_values_of_all_items (p :: ps) hall)]
    have hall2 : (sortKvs (p :: ps)).all (fun kv => okStr kv.1 && okScalar kv.2) = true :=
      all_of_perm (p :: ps) (sortKvs (p :: ps)) (sortKvs_perm (p :: ps)).symm _ hall
    match hq : sortKvs (p :: ps) with
    | [] => exact absurd hq (sortKvs_ne_nil p ps)
    | q :: qs =>
      rw [hq] at hcs hall2
      rw [yaml_safe_load_eq_parseDoc (PyVal.pyDict (p :: ps)) ?hnl, hcs,
        root_map_load q qs hall2]
      case hnl =>
        rw [hcs]
        show ∀ l ∈ yamlDumpLines (PyVal.pyDict (q :: qs)), nlc ∉ l.data
        rw [show yamlDumpLines (PyVal.pyDict (q :: qs)) = yamlMapLines 0 (q :: qs) from rfl]
        exact map_lines_no_nlc (q :: qs) hall2

theorem pyEquiv_canonSort (v : PyVal) (h : plainFlat v = true) : pyEquiv (canonSort v) v := by
  match v with
  | PyVal.pyNone => exact rfl
  | PyVal.pyBool b => exact rfl
  | PyVal.pyInt n => exact rfl
  | PyVal.pyStr s => exact rfl
  | PyVal.pyList xs =>
    have hall : xs.all okScalar = true := by simpa [plainFlat] using h
    show pyEquiv (PyVal.pyList (canonList xs)) (PyVal.pyList xs)
    rw [canonList_scalars xs hall]
    exact rfl
  | PyVal.pyDict kvs =>
    have hall : kvs.all (fun kv => okStr kv.1 && okScalar kv.2) = true := by
      have h2 := h
      rw [show plainFlat (PyVal.pyDict kvs) =
        (kvs.all (fun kv => okStr kv.1 && okScalar kv.2) &&
          decide ((kvs.map Prod.fst).Nodup)) from rfl, Bool.and_eq_true] at h2
      exact h2.1
    show (sortKvs (canonKvs kvs)).Perm kvs
    rw [canonKvs_scalars kvs (all_values_of_all_items kvs hall)]
    exact sortKvs_perm kvs

theorem claim_roundtrip_first (v : PyVal) (h : plainFlat v = true) (node : String)
    (now : Nat) :
    (claim_next_task (queue_tasks [] [v]) node now).1 = some (canonSort v) := by
  show yaml_safe_load (yaml_dump v) = some (canonSort v)
  exact yaml_load_of_plainFlat v h

/-- **C9** (enqueue/claim payload round-trip): for every plain YAML-safe task
value (a scalar, a list of scalars, or a mapping of scalars with distinct
printable keys), the stored `yaml.dump` serialization followed by
`yaml.safe_load` returns exactly the key-canonicalized value `canonSort v`,
which is Python-`==` to the enqueued value (mappings compare as key/value
sets); consequently a `claim_next_task` call on a store holding just that
enqueued task returns a payload that is Python-`==` to the enqueued value. -/
theorem C9_payload_roundtrip (v : PyVal) (h : plainFlat v = true) (node : String)
    (now : Nat) :
    yaml_safe_load (yaml_dump v) = some (canonSort v) ∧
      pyEquiv (canonSort v) v ∧
      (claim_next_task (queue_tasks [] [v]) node now).1 = some (canonSort v) :=
  ⟨yaml_load_of_plainFlat v h, pyEquiv_canonSort v h, claim_roundtrip_first v h node now⟩

theorem C9_witness :
    plainFlat (PyVal.pyDict [("b", PyVal.pyInt 1), ("a", PyVal.pyStr "x")]) = true ∧
      (yaml_safe_load (yaml_dump (PyVal.pyDict [("b", PyVal.pyInt 1),
          ("a", PyVal.pyStr "x")])) =
        some (canonSort (PyVal.pyDict [("b", PyVal.pyInt 1), ("a", PyVal.pyStr "x")])) ∧
      pyEquiv (canonSort (PyVal.pyDict [("b", PyVal.pyInt 1), ("a", PyVal.pyStr "x")]))
        (PyVal.pyDict [("b", PyVal.pyInt 1), ("a", PyVal.pyStr "x")]) ∧
      (claim_next_task (queue_tasks []
          [PyVal.pyDict [("b", PyVal.pyInt 1), ("a", PyVal.pyStr "x")]]) "w" 7).1 =
        some (canonSort (PyVal.pyDict [("b", PyVal.pyInt 1), ("a", PyVal.pyStr "x")]))) :=
  ⟨by decide, C9_payload_roundtrip (PyVal.pyDict [("b", PyVal.pyInt 1),
    ("a", PyVal.pyStr "x")]) (by decide) "w" 7⟩
